import Mathlib

/- Verification development for the or-tools resource scheduling propagators.

   The repository ships the declarations of the propagators in
   `ortools/sat/timetable.h` (classes `ReservoirTimeTabling` and
   `TimeTablingPerTask`) together with the job-shop example driver
   `examples/cpp/jobshop_sat.cc`.  The implementation file `timetable.cc`
   is not part of the source tree, so the profile construction and the
   sweeps below are modelled from the specification's description of the
   algorithms; the job-shop horizon computation is translated directly
   from `jobshop_sat.cc`. -/

/-- Modelled from the spec: the per-task view of `SchedulingConstraintHelper`
(the implementation behind `timetable.cc` is missing from the tree).  A task
has a start window `[start_min, start_max]`, a fixed duration `dur`, the
currently proven minimal demand `demand`, and a flag `present` meaning the
task is proven present.  `end_min` is derived as `start_min + dur`. -/
structure PTask where
  start_min : Int
  start_max : Int
  dur : Int
  demand : Int
  present : Bool
  deriving DecidableEq, Repr

/-- A placeholder task used as the default of list lookups. -/
def dummyTask : PTask := ⟨0, 0, 0, 0, false⟩

/-- Derived earliest end time of a task: `start_min + dur`. -/
def endMin (τ : PTask) : Int := τ.start_min + τ.dur

/-- Modelled from the spec: a task has a mandatory part `[start_max, end_min)`
when it is proven present and that interval is non-empty. -/
def hasMandatory (τ : PTask) : Prop := τ.present = true ∧ τ.start_max < endMin τ

instance (τ : PTask) : Decidable (hasMandatory τ) := by
  unfold hasMandatory; infer_instance

/-- Modelled from the spec: the profile events of one task — a `+demand`
event at `start_max` and a `-demand` event at `end_min` when the task has a
mandatory part, nothing otherwise (`timetable.cc` is missing). -/
def taskEvents (τ : PTask) : List (Int × Int) :=
  if hasMandatory τ then [(τ.start_max, τ.demand), (endMin τ, -τ.demand)] else []

/-- All profile events of a task set. -/
def allEvents (ts : List PTask) : List (Int × Int) := ts.flatMap taskEvents

/-- Sum of the deltas of the events whose time satisfies `p`. -/
def sumOver (E : List (Int × Int)) (p : Int → Bool) : Int :=
  ((E.filter (fun e => p e.1)).map Prod.snd).sum

/-- Merged delta of all events happening at exactly time `u`. -/
def deltaAt (E : List (Int × Int)) (u : Int) : Int :=
  sumOver E (fun x => decide (x = u))

/-- The distinct event times, in increasing order. -/
def eventTimes (E : List (Int × Int)) : List Int :=
  List.insertionSort (· ≤ ·) (E.map Prod.fst).dedup

/-- A profile rectangle, as in `timetable.h`: the height holds from `start`
(inclusive) until the start of the next rectangle (exclusive). -/
structure ProfileRectangle where
  start : Int
  height : Int
  deriving DecidableEq, Repr

/-- Modelled from the spec: the sweep emitting one rectangle per distinct
event time, accumulating the merged deltas (`timetable.cc` is missing). -/
def goProfile (E : List (Int × Int)) : List Int → Int → List ProfileRectangle
  | [], _ => []
  | u :: rest, h => ProfileRectangle.mk u (h + deltaAt E u) :: goProfile E rest (h + deltaAt E u)

/-- Modelled from the spec: the running-level profile of
`ReservoirTimeTabling::BuildProfile` over signed-delta events
(`timetable.cc` is missing). -/
def resProfile (E : List (Int × Int)) : List ProfileRectangle :=
  goProfile E (eventTimes E) 0

/-- Modelled from the spec: `TimeTablingPerTask::BuildProfile` — events of
all tasks with a mandatory part, sorted and merged by time, swept in time
order (`timetable.cc` is missing). -/
def BuildProfile (ts : List PTask) : List ProfileRectangle :=
  resProfile (allEvents ts)

/-- Height of the rectangle containing time `t`, with height `a` before the
first rectangle. -/
def heightFrom (a : Int) (prof : List ProfileRectangle) (t : Int) : Int :=
  prof.foldl (fun acc r => if r.start ≤ t then r.height else acc) a

/-- Height of the profile at time `t` (zero before the first rectangle). -/
def heightAt (prof : List ProfileRectangle) (t : Int) : Int := heightFrom 0 prof t

/-- Contribution of one task to the mandatory demand at time `t`. -/
def mandContrib (τ : PTask) (t : Int) : Int :=
  if τ.present = true ∧ τ.start_max ≤ t ∧ t < endMin τ then τ.demand else 0

/-- Total demand of the tasks whose mandatory part contains `t`. -/
def totalDemandAt (ts : List PTask) (t : Int) : Int :=
  (ts.map (fun τ => mandContrib τ t)).sum

/-- Modelled from the spec: the overload check of
`TimeTablingPerTask::BuildProfile` — a conflict when some rectangle exceeds
the capacity upper bound, checked after merging equal-time events
(`timetable.cc` is missing). -/
def cumulConflict (ts : List PTask) (cap : Int) : Bool :=
  (BuildProfile ts).any (fun r => decide (cap < r.height))

lemma goProfile_map_start (E : List (Int × Int)) :
    ∀ (T : List Int) (h : Int), (goProfile E T h).map ProfileRectangle.start = T := by
  intro T
  induction T with
  | nil => intro h; rfl
  | cons u rest ih => intro h; simp [goProfile, ih]

lemma eventTimes_sorted_le (E : List (Int × Int)) :
    (eventTimes E).Sorted (· ≤ ·) :=
  List.sorted_insertionSort _ _

lemma eventTimes_nodup (E : List (Int × Int)) : (eventTimes E).Nodup :=
  (List.perm_insertionSort _ _).nodup_iff.mpr (List.nodup_dedup _)

lemma eventTimes_sorted (E : List (Int × Int)) :
    (eventTimes E).Sorted (· < ·) := by
  have hs := eventTimes_sorted_le E
  have hnd : (eventTimes E).Pairwise (· ≠ ·) := eventTimes_nodup E
  exact (hs.and hnd).imp (fun h => lt_of_le_of_ne h.1 h.2)

lemma mem_eventTimes (E : List (Int × Int)) (x : Int) :
    x ∈ eventTimes E ↔ x ∈ E.map Prod.fst :=
  (List.perm_insertionSort _ _).mem_iff.trans (List.mem_dedup)

lemma heightFrom_cons (a : Int) (r : ProfileRectangle) (prof : List ProfileRectangle) (t : Int) :
    heightFrom a (r :: prof) t = heightFrom (if r.start ≤ t then r.height else a) prof t := rfl

lemma heightFrom_of_none (t : Int) :
    ∀ (prof : List ProfileRectangle) (a : Int), (∀ r ∈ prof, ¬ r.start ≤ t) → heightFrom a prof t = a := by
  intro prof
  induction prof with
  | nil => intro a _; rfl
  | cons r rest ih =>
    intro a h
    rw [heightFrom_cons, if_neg (h r (List.mem_cons_self r rest))]
    exact ih a (fun r' hr' => h r' (List.mem_cons_of_mem r hr'))

lemma heightFrom_goProfile (E : List (Int × Int)) (t : Int) :
    ∀ (T : List Int) (h : Int), T.Sorted (· < ·) →
      heightFrom h (goProfile E T h) t =
        h + ((T.filter (fun u => decide (u ≤ t))).map (deltaAt E)).sum := by
  intro T
  induction T with
  | nil => intro h _; simp [goProfile, heightFrom]
  | cons u rest ih =>
    intro h hs
    obtain ⟨hu, hrest⟩ := List.sorted_cons.mp hs
    by_cases hut : u ≤ t
    · rw [goProfile, heightFrom_cons]
      simp only [if_pos hut]
      rw [ih (h + deltaAt E u) hrest]
      simp [List.filter_cons, hut, add_assoc]
    · rw [goProfile, heightFrom_cons]
      simp only [if_neg hut]
      have hnone : ∀ r ∈ goProfile E rest (h + deltaAt E u), ¬ r.start ≤ t := by
        intro r hr
        have hmem : r.start ∈ rest := by
          have := goProfile_map_start E rest (h + deltaAt E u)
          rw [← this]
          exact List.mem_map_of_mem _ hr
        have := hu r.start hmem
        omega
      rw [heightFrom_of_none t _ h hnone]
      have hfil : rest.filter (fun u => decide (u ≤ t)) = [] := by
        rw [List.filter_eq_nil]
        intro v hv
        have := hu v hv
        simp only [decide_eq_true_eq]
        omega
      simp [List.filter_cons, hut, hfil]

lemma sumOver_perm {E E' : List (Int × Int)} (h : E.Perm E') (p : Int → Bool) :
    sumOver E p = sumOver E' p := by
  unfold sumOver
  exact ((h.filter _).map _).sum_eq

lemma sumOver_append (E₁ E₂ : List (Int × Int)) (p : Int → Bool) :
    sumOver (E₁ ++ E₂) p = sumOver E₁ p + sumOver E₂ p := by
  simp [sumOver, List.filter_append]

lemma sumOver_split (E : List (Int × Int)) (p : Int → Bool) (q : Int × Int → Bool) :
    sumOver E p = sumOver (E.filter q) p + sumOver (E.filter (fun e => !q e)) p := by
  rw [← sumOver_append]
  exact sumOver_perm (List.filter_append_perm q E).symm p

lemma sumOver_eq_zero (E : List (Int × Int)) (p : Int → Bool)
    (h : ∀ e ∈ E, p e.1 = false) : sumOver E p = 0 := by
  unfold sumOver
  rw [List.filter_eq_nil.mpr (fun e he => by simp [h e he])]
  rfl

lemma sumOver_eq_total (E : List (Int × Int)) (p : Int → Bool)
    (h : ∀ e ∈ E, p e.1 = true) : sumOver E p = (E.map Prod.snd).sum := by
  unfold sumOver
  rw [List.filter_eq_self.mpr (fun e he => by simp [h e he])]

lemma partition_sum (t : Int) :
    ∀ (T : List Int) (E : List (Int × Int)), T.Nodup → (∀ e ∈ E, e.1 ∈ T) →
      ((T.filter (fun u => decide (u ≤ t))).map (deltaAt E)).sum =
        sumOver E (fun x => decide (x ≤ t)) := by
  intro T
  induction T with
  | nil =>
    intro E _ hcomp
    have hE : E = [] := List.eq_nil_iff_forall_not_mem.mpr
      (fun e he => absurd (hcomp e he) (List.not_mem_nil _))
    subst hE
    rfl
  | cons u T' ih =>
    intro E hnd hcomp
    obtain ⟨hu, hndT'⟩ := List.nodup_cons.mp hnd
    set E1 := E.filter (fun e => decide (e.1 = u)) with hE1
    set E2 := E.filter (fun e => !decide (e.1 = u)) with hE2
    have hmemE1 : ∀ e ∈ E1, e.1 = u := by
      intro e he
      have := List.of_mem_filter he
      simpa using this
    have hmemE2 : ∀ e ∈ E2, e.1 ≠ u := by
      intro e he
      have := List.of_mem_filter he
      simpa using this
    have hcomp2 : ∀ e ∈ E2, e.1 ∈ T' := by
      intro e he
      have h1 := hcomp e (List.mem_of_mem_filter he)
      rcases List.mem_cons.mp h1 with h | h
      · exact absurd h (hmemE2 e he)
      · exact h
    have hdelta : ∀ v ∈ T', deltaAt E v = deltaAt E2 v := by
      intro v hv
      have hvu : v ≠ u := fun h => hu (h ▸ hv)
      unfold deltaAt
      rw [sumOver_split E _ (fun e => decide (e.1 = u))]
      rw [sumOver_eq_zero E1 _ (fun e he => by simp [hmemE1 e he, hvu.symm])]
      simp [hE1, hE2]
    have hmapcongr :
        (T'.filter (fun v => decide (v ≤ t))).map (deltaAt E) =
          (T'.filter (fun v => decide (v ≤ t))).map (deltaAt E2) :=
      List.map_congr_left (fun v hv => hdelta v (List.mem_of_mem_filter hv))
    have hsplit := sumOver_split E (fun x => decide (x ≤ t)) (fun e => decide (e.1 = u))
    by_cases hut : u ≤ t
    · have hE1tot : sumOver E1 (fun x => decide (x ≤ t)) = (E1.map Prod.snd).sum :=
        sumOver_eq_total E1 _ (fun e he => by simp [hmemE1 e he, hut])
      have hdu : deltaAt E u = (E1.map Prod.snd).sum := by
        unfold deltaAt
        rw [sumOver_split E _ (fun e => decide (e.1 = u))]
        rw [sumOver_eq_zero E2 _ (fun e he => by simp [hmemE2 e he])]
        rw [sumOver_eq_total E1 _ (fun e he => by simp [hmemE1 e he])]
        simp [hE1, hE2]
      rw [List.filter_cons]
      simp only [decide_eq_true_eq, hut, if_pos, List.map_cons, List.sum_cons]
      rw [hmapcongr, ih E2 hndT' hcomp2, hsplit, hE1tot, hdu]
    · have hE1z : sumOver E1 (fun x => decide (x ≤ t)) = 0 :=
        sumOver_eq_zero E1 _ (fun e he => by simp [hmemE1 e he, hut])
      rw [List.filter_cons]
      simp only [decide_eq_true_eq, hut, if_neg, ite_false]
      rw [hmapcongr, ih E2 hndT' hcomp2, hsplit, hE1z]
      ring

lemma allTimes_mem (E : List (Int × Int)) : ∀ e ∈ E, e.1 ∈ eventTimes E :=
  fun e he => (mem_eventTimes E e.1).mpr (List.mem_map_of_mem _ he)

lemma heightAt_resProfile (E : List (Int × Int)) (t : Int) :
    heightAt (resProfile E) t = sumOver E (fun x => decide (x ≤ t)) := by
  unfold heightAt resProfile
  rw [heightFrom_goProfile E t (eventTimes E) 0 (eventTimes_sorted E)]
  rw [partition_sum t (eventTimes E) E (eventTimes_nodup E) (allTimes_mem E)]
  ring

lemma sumOver_flatMap {α : Type} (ts : List α) (f : α → List (Int × Int)) (p : Int → Bool) :
    sumOver (ts.flatMap f) p = (ts.map (fun τ => sumOver (f τ) p)).sum := by
  induction ts with
  | nil => rfl
  | cons τ ts ih => simp [List.flatMap_cons, sumOver_append, ih]

lemma sumOver_pair (a b d1 d2 : Int) (p : Int → Bool) :
    sumOver [(a, d1), (b, d2)] p = (if p a then d1 else 0) + (if p b then d2 else 0) := by
  unfold sumOver
  cases ha : p a <;> cases hb : p b <;> simp [List.filter_cons, ha, hb]

lemma sumOver_taskEvents (τ : PTask) (t : Int) :
    sumOver (taskEvents τ) (fun x => decide (x ≤ t)) = mandContrib τ t := by
  unfold taskEvents mandContrib
  by_cases h : hasMandatory τ
  · obtain ⟨hp, hlt⟩ := h
    rw [if_pos ⟨hp, hlt⟩, sumOver_pair]
    simp only [decide_eq_true_eq, hp, true_and]
    split_ifs <;> omega
  · rw [if_neg h]
    have : ¬ (τ.present = true ∧ τ.start_max ≤ t ∧ t < endMin τ) := by
      rintro ⟨hp, h1, h2⟩
      exact h ⟨hp, lt_of_le_of_lt h1 h2⟩
    rw [if_neg this]
    rfl

lemma heightAt_BuildProfile (ts : List PTask) (t : Int) :
    heightAt (BuildProfile ts) t = totalDemandAt ts t := by
  unfold BuildProfile
  rw [heightAt_resProfile]
  unfold allEvents
  rw [sumOver_flatMap]
  unfold totalDemandAt
  congr 1
  exact List.map_congr_left (fun τ _ => sumOver_taskEvents τ t)

lemma goProfile_height_mem (E : List (Int × Int)) :
    ∀ (T : List Int) (h : Int), T.Sorted (· < ·) →
      ∀ r ∈ goProfile E T h,
        r.height = h + ((T.filter (fun u => decide (u ≤ r.start))).map (deltaAt E)).sum := by
  intro T
  induction T with
  | nil => intro h _ r hr; simp [goProfile] at hr
  | cons u rest ih =>
    intro h hs r hr
    obtain ⟨hu, hrest⟩ := List.sorted_cons.mp hs
    rw [goProfile] at hr
    rcases List.mem_cons.mp hr with hr | hr
    · subst hr
      simp only
      have hfil : rest.filter (fun v => decide (v ≤ u)) = [] := by
        rw [List.filter_eq_nil]
        intro v hv
        have := hu v hv
        simp only [decide_eq_true_eq]
        omega
      simp [List.filter_cons, hfil]
    · have hstart : u ≤ r.start := by
        have hmem : r.start ∈ rest := by
          have := goProfile_map_start E rest (h + deltaAt E u)
          rw [← this]
          exact List.mem_map_of_mem _ hr
        have := hu r.start hmem
        omega
      rw [ih (h + deltaAt E u) hrest r hr]
      rw [List.filter_cons]
      simp only [decide_eq_true_eq, hstart, if_pos, List.map_cons, List.sum_cons]
      ring

lemma resProfile_height (E : List (Int × Int)) (r : ProfileRectangle)
    (hr : r ∈ resProfile E) : r.height = sumOver E (fun x => decide (x ≤ r.start)) := by
  unfold resProfile at hr
  rw [goProfile_height_mem E (eventTimes E) 0 (eventTimes_sorted E) r hr]
  rw [partition_sum r.start (eventTimes E) E (eventTimes_nodup E) (allTimes_mem E)]
  ring

lemma BuildProfile_height (ts : List PTask) (r : ProfileRectangle)
    (hr : r ∈ BuildProfile ts) : r.height = totalDemandAt ts r.start := by
  unfold BuildProfile at hr
  rw [resProfile_height (allEvents ts) r hr]
  unfold allEvents
  rw [sumOver_flatMap]
  unfold totalDemandAt
  congr 1
  exact List.map_congr_left (fun τ _ => sumOver_taskEvents τ r.start)

lemma heightFrom_cases (t : Int) :
    ∀ (prof : List ProfileRectangle) (a : Int),
      heightFrom a prof t = a ∨ ∃ r ∈ prof, heightFrom a prof t = r.height := by
  intro prof
  induction prof with
  | nil => intro a; exact Or.inl rfl
  | cons r rest ih =>
    intro a
    rw [heightFrom_cons]
    rcases ih (if r.start ≤ t then r.height else a) with h | ⟨r', hr', h⟩
    · by_cases hrt : r.start ≤ t
      · exact Or.inr ⟨r, List.mem_cons_self r rest, by rw [h, if_pos hrt]⟩
      · exact Or.inl (by rw [h, if_neg hrt])
    · exact Or.inr ⟨r', List.mem_cons_of_mem r hr', h⟩

lemma heightAt_cases (prof : List ProfileRectangle) (t : Int) :
    heightAt prof t = 0 ∨ ∃ r ∈ prof, heightAt prof t = r.height :=
  heightFrom_cases t prof 0

/-- C1: `BuildProfile` produces a profile whose rectangle height at every
time `t` equals the total demand of the tasks whose mandatory part
`[start_max, end_min)` contains `t`, and — because all events at equal time
are merged before the capacity comparison — a conflict is only ever
reported when the merged mandatory demand itself exceeds the capacity at
some time, never from a transient overshoot. -/
theorem c1_build_profile_height (ts : List PTask) (cap : Int) :
    (∀ t : Int, heightAt (BuildProfile ts) t = totalDemandAt ts t) ∧
    (cumulConflict ts cap = true → ∃ t : Int, cap < totalDemandAt ts t) := by
  constructor
  · exact heightAt_BuildProfile ts
  · intro h
    obtain ⟨r, hr, hcap⟩ := List.any_eq_true.mp h
    refine ⟨r.start, ?_⟩
    rw [← BuildProfile_height ts r hr]
    exact of_decide_eq_true hcap

/-- Witness for C1 at the spec's overload scenario: two mandatory tasks of
demands 3 and 4 on `[0,5)` against capacity 6. -/
theorem c1_witness :
    ∃ t : Int, (6:Int) < totalDemandAt [⟨0, 0, 5, 3, true⟩, ⟨0, 0, 5, 4, true⟩] t :=
  (c1_build_profile_height [⟨0, 0, 5, 3, true⟩, ⟨0, 0, 5, 4, true⟩] 6).2 (by decide)

lemma heightFrom_congr (prof : List ProfileRectangle) (pos t : Int)
    (hle : pos ≤ t) (hno : ∀ r ∈ prof, ¬(pos < r.start ∧ r.start ≤ t)) :
    ∀ a : Int, heightFrom a prof t = heightFrom a prof pos := by
  induction prof with
  | nil => intro a; rfl
  | cons r rest ih =>
    intro a
    rw [heightFrom_cons, heightFrom_cons]
    have hiff : r.start ≤ t ↔ r.start ≤ pos := by
      have hnr := hno r (List.mem_cons_self r rest)
      constructor
      · intro h2
        by_contra h3
        exact hnr ⟨by omega, h2⟩
      · intro h2
        omega
    rw [if_congr hiff rfl rfl]
    exact ih (fun r' hr' => hno r' (List.mem_cons_of_mem r hr')) _

lemma heightAt_congr (prof : List ProfileRectangle) (pos t : Int)
    (hle : pos ≤ t) (hno : ∀ r ∈ prof, ¬(pos < r.start ∧ r.start ≤ t)) :
    heightAt prof t = heightAt prof pos :=
  heightFrom_congr prof pos t hle hno 0

/-- Modelled from the spec: the scan loop of `TimeTablingPerTask::SweepTask`
(`timetable.cc` is missing).  Starting at `pos`, while the rectangle
containing the scan position has `height + d > cap`, advance the scan
position to the rectangle's end (the next profile boundary); return the
first non-violating position, or `none` when the scan runs off the end of
the profile. -/
def findFit (prof : List ProfileRectangle) (d cap : Int) : List Int → Int → Option Int
  | [], pos => if cap < heightAt prof pos + d then none else some pos
  | u :: rest, pos =>
      if cap < heightAt prof pos + d then findFit prof d cap rest (max u pos)
      else some pos

lemma findFit_some_ge (prof : List ProfileRectangle) (d cap : Int) :
    ∀ (bs : List Int) (pos p : Int), findFit prof d cap bs pos = some p → pos ≤ p := by
  intro bs
  induction bs with
  | nil =>
    intro pos p h
    by_cases hv : cap < heightAt prof pos + d
    · simp [findFit, hv] at h
    · simp [findFit, hv] at h
      omega
  | cons u rest ih =>
    intro pos p h
    by_cases hv : cap < heightAt prof pos + d
    · simp only [findFit, if_pos hv] at h
      have := ih (max u pos) p h
      have := le_max_right u pos
      omega
    · simp [findFit, hv] at h
      omega

lemma findFit_some_ok (prof : List ProfileRectangle) (d cap : Int) :
    ∀ (bs : List Int) (pos p : Int), findFit prof d cap bs pos = some p →
      ¬(cap < heightAt prof p + d) := by
  intro bs
  induction bs with
  | nil =>
    intro pos p h
    by_cases hv : cap < heightAt prof pos + d
    · simp [findFit, hv] at h
    · simp [findFit, hv] at h
      rw [← h]
      exact hv
  | cons u rest ih =>
    intro pos p h
    by_cases hv : cap < heightAt prof pos + d
    · simp only [findFit, if_pos hv] at h
      exact ih (max u pos) p h
    · simp [findFit, hv] at h
      rw [← h]
      exact hv

lemma between_no_start (prof : List ProfileRectangle) (u pos t : Int) (rest : List Int)
    (hcov : ∀ r ∈ prof, pos < r.start → r.start ∈ u :: rest)
    (hu : ∀ v ∈ rest, u ≤ v)
    (ht : t < max u pos) :
    ∀ r ∈ prof, ¬(pos < r.start ∧ r.start ≤ t) := by
  rintro r hr ⟨ha, hb⟩
  have hmem := hcov r hr ha
  have hkey : max u pos ≤ r.start := by
    rcases List.mem_cons.mp hmem with h5 | h5
    · exact max_le (by omega) (by omega)
    · exact max_le (hu r.start h5) (by omega)
  omega

lemma findFit_skip (prof : List ProfileRectangle) (d cap : Int) :
    ∀ (bs : List Int) (pos p : Int), bs.Sorted (· ≤ ·) →
      (∀ r ∈ prof, pos < r.start → r.start ∈ bs) →
      findFit prof d cap bs pos = some p →
      ∀ t, pos ≤ t → t < p → cap < heightAt prof t + d := by
  intro bs
  induction bs with
  | nil =>
    intro pos p _ _ h t h1 h2
    by_cases hv : cap < heightAt prof pos + d
    · simp [findFit, hv] at h
    · simp [findFit, hv] at h
      omega
  | cons u rest ih =>
    intro pos p hsort hcov h t h1 h2
    obtain ⟨hu, hrest⟩ := List.sorted_cons.mp hsort
    by_cases hv : cap < heightAt prof pos + d
    · simp only [findFit, if_pos hv] at h
      have hcov' : ∀ r ∈ prof, max u pos < r.start → r.start ∈ rest := by
        intro r hr hlt
        have h3 : pos < r.start := lt_of_le_of_lt (le_max_right u pos) hlt
        rcases List.mem_cons.mp (hcov r hr h3) with h5 | h5
        · exfalso
          have := le_max_left u pos
          omega
        · exact h5
      by_cases ht : t < max u pos
      · have hno := between_no_start prof u pos t rest hcov hu ht
        rw [heightAt_congr prof pos t h1 hno]
        exact hv
      · exact ih (max u pos) p hrest hcov' h t (not_lt.mp ht) h2
    · simp [findFit, hv] at h
      omega

lemma findFit_none (prof : List ProfileRectangle) (d cap : Int) :
    ∀ (bs : List Int) (pos : Int), bs.Sorted (· ≤ ·) →
      (∀ r ∈ prof, pos < r.start → r.start ∈ bs) →
      findFit prof d cap bs pos = none →
      ∀ t, pos ≤ t → cap < heightAt prof t + d := by
  intro bs
  induction bs with
  | nil =>
    intro pos _ hcov h t h1
    by_cases hv : cap < heightAt prof pos + d
    · have hno : ∀ r ∈ prof, ¬(pos < r.start ∧ r.start ≤ t) := by
        rintro r hr ⟨ha, _⟩
        exact absurd (hcov r hr ha) (List.not_mem_nil _)
      rw [heightAt_congr prof pos t h1 hno]
      exact hv
    · simp [findFit, hv] at h
  | cons u rest ih =>
    intro pos hsort hcov h t h1
    obtain ⟨hu, hrest⟩ := List.sorted_cons.mp hsort
    by_cases hv : cap < heightAt prof pos + d
    · simp only [findFit, if_pos hv] at h
      have hcov' : ∀ r ∈ prof, max u pos < r.start → r.start ∈ rest := by
        intro r hr hlt
        have h3 : pos < r.start := lt_of_le_of_lt (le_max_right u pos) hlt
        rcases List.mem_cons.mp (hcov r hr h3) with h5 | h5
        · exfalso
          have := le_max_left u pos
          omega
        · exact h5
      by_cases ht : t < max u pos
      · have hno := between_no_start prof u pos t rest hcov hu ht
        rw [heightAt_congr prof pos t h1 hno]
        exact hv
      · exact ih (max u pos) hrest hcov' h t (not_lt.mp ht)
    · simp [findFit, hv] at h

/-- Modelled from the spec: one per-task scan of
`TimeTablingPerTask::SweepTask` against a profile — scan from the task's
`start_min`; `none` reports a conflict (the scan ran past `start_max` or
off the profile), `some p` is the first non-violating position
(`timetable.cc` is missing). -/
def sweepStep (cap : Int) (prof : List ProfileRectangle) (τ : PTask) : Option Int :=
  match findFit prof τ.demand cap (prof.map ProfileRectangle.start) τ.start_min with
  | none => none
  | some p => if τ.start_max < p then none else some p

/-- Modelled from the spec: `TimeTablingPerTask::SweepTask` for task `c`
against the profile of the current bounds (`timetable.cc` is missing). -/
def SweepTask (cap : Int) (ts : List PTask) (c : ℕ) : Option Int :=
  sweepStep cap (BuildProfile ts) (ts.getD c dummyTask)

/-- Modelled from the spec: `TimeTablingPerTask::UpdateStartingTime` —
record the new starting time of task `c` in the bound store
(`timetable.cc` is missing). -/
def UpdateStartingTime (ts : List PTask) (c : ℕ) (p : Int) : List PTask :=
  ts.set c { ts.getD c dummyTask with start_min := p }

/-- Modelled from the spec: `TimeTablingPerTask::SweepAllTasks` — sweep the
listed tasks in order against the profile built at the start of the call,
skipping tasks with a fixed start, pushing each increased `start_min` into
the bound store, and failing on the first conflict (`timetable.cc` is
missing). -/
def sweepAllAux (cap : Int) (prof : List ProfileRectangle) : List ℕ → List PTask → Option (List PTask)
  | [], ts => some ts
  | c :: cs, ts =>
    if (ts.getD c dummyTask).start_min = (ts.getD c dummyTask).start_max then
      sweepAllAux cap prof cs ts
    else
      match sweepStep cap prof (ts.getD c dummyTask) with
      | none => none
      | some p =>
          if (ts.getD c dummyTask).start_min < p then
            sweepAllAux cap prof cs (UpdateStartingTime ts c p)
          else sweepAllAux cap prof cs ts

lemma resProfile_starts_sorted (E : List (Int × Int)) :
    ((resProfile E).map ProfileRectangle.start).Sorted (· < ·) := by
  unfold resProfile
  rw [goProfile_map_start]
  exact eventTimes_sorted E

lemma BuildProfile_starts_sorted (ts : List PTask) :
    ((BuildProfile ts).map ProfileRectangle.start).Sorted (· < ·) :=
  resProfile_starts_sorted (allEvents ts)

lemma BuildProfile_starts_sorted_le (ts : List PTask) :
    ((BuildProfile ts).map ProfileRectangle.start).Sorted (· ≤ ·) :=
  (BuildProfile_starts_sorted ts).imp (fun h => le_of_lt h)

lemma BuildProfile_cov (ts : List PTask) (pos : Int) :
    ∀ r ∈ BuildProfile ts, pos < r.start →
      r.start ∈ (BuildProfile ts).map ProfileRectangle.start :=
  fun _r hr _ => List.mem_map_of_mem _ hr

lemma sweepStep_some (cap : Int) (prof : List ProfileRectangle) (τ : PTask) (p : Int)
    (h : sweepStep cap prof τ = some p) :
    findFit prof τ.demand cap (prof.map ProfileRectangle.start) τ.start_min = some p ∧
      p ≤ τ.start_max := by
  unfold sweepStep at h
  cases hf : findFit prof τ.demand cap (prof.map ProfileRectangle.start) τ.start_min with
  | none => rw [hf] at h; exact absurd h (by simp)
  | some q =>
    rw [hf] at h
    have h' : (if τ.start_max < q then (none : Option Int) else some q) = some p := h
    by_cases hq : τ.start_max < q
    · rw [if_pos hq] at h'
      exact absurd h' (by simp)
    · rw [if_neg hq] at h'
      have hqp : q = p := by
        simpa using h'
      subst hqp
      exact ⟨rfl, not_lt.mp hq⟩

lemma sweepStep_none (cap : Int) (prof : List ProfileRectangle) (τ : PTask)
    (h : sweepStep cap prof τ = none) :
    findFit prof τ.demand cap (prof.map ProfileRectangle.start) τ.start_min = none ∨
      ∃ p, findFit prof τ.demand cap (prof.map ProfileRectangle.start) τ.start_min = some p ∧
        τ.start_max < p := by
  unfold sweepStep at h
  cases hf : findFit prof τ.demand cap (prof.map ProfileRectangle.start) τ.start_min with
  | none => exact Or.inl rfl
  | some q =>
    rw [hf] at h
    have h' : (if τ.start_max < q then (none : Option Int) else some q) = none := h
    by_cases hq : τ.start_max < q
    · exact Or.inr ⟨q, rfl, hq⟩
    · rw [if_neg hq] at h'
      exact absurd h' (by simp)

/-- Contribution of one task to the resource usage of a schedule: its
demand while it executes on `[s, s + dur)`. -/
def execContrib (τ : PTask) (s t : Int) : Int :=
  if s ≤ t ∧ t < s + τ.dur then τ.demand else 0

/-- Total resource usage at time `t` of the schedule assigning start
`σ i` to the `i`-th task. -/
def usage (ts : List PTask) (σ : ℕ → Int) (t : Int) : Int :=
  ((List.range ts.length).map (fun i => execContrib (ts.getD i dummyTask) (σ i) t)).sum

/-- A schedule is feasible for the current bounds when every start lies in
its window and the total usage never exceeds the capacity. -/
def FeasibleSchedule (cap : Int) (ts : List PTask) (σ : ℕ → Int) : Prop :=
  (∀ i, i < ts.length →
      (ts.getD i dummyTask).start_min ≤ σ i ∧ σ i ≤ (ts.getD i dummyTask).start_max) ∧
  (∀ t : Int, usage ts σ t ≤ cap)

lemma getD_mem {α : Type} (d : α) (ts : List α) : ∀ (i : ℕ), i < ts.length → ts.getD i d ∈ ts := by
  induction ts with
  | nil => intro i hi; simp at hi
  | cons τ ts ih =>
    intro i hi
    cases i with
    | zero => exact List.mem_cons_self _ _
    | succ j =>
      rw [List.getD_cons_succ]
      exact List.mem_cons_of_mem _ (ih j (by simpa using hi))

lemma map_eq_range_map {α : Type} (d : α) (f : α → Int) (ts : List α) :
    ts.map f = (List.range ts.length).map (fun i => f (ts.getD i d)) := by
  induction ts with
  | nil => rfl
  | cons τ ts ih =>
    simp only [List.map_cons, List.length_cons, List.range_succ_eq_map, List.map_map]
    refine congrArg₂ List.cons rfl ?_
    rw [ih]
    rfl

lemma list_sum_map_sub (l : List ℕ) (f g : ℕ → Int) :
    (l.map (fun i => f i - g i)).sum = (l.map f).sum - (l.map g).sum := by
  induction l with
  | nil => simp
  | cons i l ih => simp [ih]; ring

lemma mand_le_exec (τ : PTask) (s t : Int)
    (hd : 0 ≤ τ.demand) (hb1 : τ.start_min ≤ s) (hb2 : s ≤ τ.start_max) :
    mandContrib τ t ≤ execContrib τ s t := by
  unfold mandContrib execContrib endMin
  by_cases h1 : τ.present = true ∧ τ.start_max ≤ t ∧ t < τ.start_min + τ.dur
  · rw [if_pos h1, if_pos (by omega : s ≤ t ∧ t < s + τ.dur)]
  · rw [if_neg h1]
    split_ifs
    · exact hd
    · exact le_refl 0

lemma exec_nonneg (τ : PTask) (s t : Int) (hd : 0 ≤ τ.demand) :
    0 ≤ execContrib τ s t := by
  unfold execContrib
  split_ifs
  · exact hd
  · exact le_refl 0

lemma usage_ge (ts : List PTask) (σ : ℕ → Int) (t : Int) (c : ℕ)
    (hdem : ∀ τ ∈ ts, 0 ≤ τ.demand)
    (hbounds : ∀ i, i < ts.length →
      (ts.getD i dummyTask).start_min ≤ σ i ∧ σ i ≤ (ts.getD i dummyTask).start_max)
    (hc : c < ts.length)
    (hex : σ c ≤ t ∧ t < σ c + (ts.getD c dummyTask).dur)
    (hnm : mandContrib (ts.getD c dummyTask) t = 0) :
    totalDemandAt ts t + (ts.getD c dummyTask).demand ≤ usage ts σ t := by
  have htot : totalDemandAt ts t =
      ((List.range ts.length).map (fun i => mandContrib (ts.getD i dummyTask) t)).sum := by
    unfold totalDemandAt
    rw [map_eq_range_map dummyTask]
  have hpt : ∀ i ∈ List.range ts.length,
      (0:Int) ≤ execContrib (ts.getD i dummyTask) (σ i) t - mandContrib (ts.getD i dummyTask) t := by
    intro i hi
    have hi' : i < ts.length := List.mem_range.mp hi
    obtain ⟨hb1, hb2⟩ := hbounds i hi'
    have hd := hdem _ (getD_mem dummyTask ts i hi')
    have := mand_le_exec (ts.getD i dummyTask) (σ i) t hd hb1 hb2
    omega
  have hcmem :
      execContrib (ts.getD c dummyTask) (σ c) t - mandContrib (ts.getD c dummyTask) t ∈
        (List.range ts.length).map
          (fun i => execContrib (ts.getD i dummyTask) (σ i) t - mandContrib (ts.getD i dummyTask) t) :=
    List.mem_map_of_mem _ (List.mem_range.mpr hc)
  have hsingle :
      execContrib (ts.getD c dummyTask) (σ c) t - mandContrib (ts.getD c dummyTask) t ≤
        ((List.range ts.length).map
          (fun i => execContrib (ts.getD i dummyTask) (σ i) t - mandContrib (ts.getD i dummyTask) t)).sum := by
    apply List.single_le_sum _ _ hcmem
    intro x hx
    obtain ⟨i, hi, rfl⟩ := List.mem_map.mp hx
    exact hpt i hi
  rw [list_sum_map_sub] at hsingle
  have hcexec : execContrib (ts.getD c dummyTask) (σ c) t = (ts.getD c dummyTask).demand := by
    unfold execContrib
    rw [if_pos hex]
  rw [hcexec, hnm] at hsingle
  have husage : usage ts σ t =
      ((List.range ts.length).map (fun i => execContrib (ts.getD i dummyTask) (σ i) t)).sum := rfl
  omega

/-- Modelled from the spec: `TimeTablingPerTask::AddProfileReason` — the
reason for the profile state on `[l, r)` is the set of tasks whose
mandatory part overlaps that interval (`timetable.cc` is missing). -/
def AddProfileReason (ts : List PTask) (l r : Int) : List PTask :=
  ts.filter (fun τ => decide (hasMandatory τ ∧ τ.start_max < r ∧ l < endMin τ))

lemma totalDemandAt_cons (τ : PTask) (ts : List PTask) (t : Int) :
    totalDemandAt (τ :: ts) t = mandContrib τ t + totalDemandAt ts t := by
  simp [totalDemandAt]

lemma reason_complete (l r t : Int) (h1 : l ≤ t) (h2 : t < r) :
    ∀ ts : List PTask, totalDemandAt (AddProfileReason ts l r) t = totalDemandAt ts t := by
  intro ts
  induction ts with
  | nil => rfl
  | cons τ ts ih =>
    unfold AddProfileReason at *
    rw [List.filter_cons]
    by_cases hk : hasMandatory τ ∧ τ.start_max < r ∧ l < endMin τ
    · rw [decide_eq_true hk]
      simp only [if_pos]
      rw [totalDemandAt_cons, totalDemandAt_cons, ih]
    · rw [decide_eq_false hk]
      simp only [Bool.false_eq_true, if_neg, ite_false]
      have hz : mandContrib τ t = 0 := by
        unfold mandContrib
        rw [if_neg]
        rintro ⟨hp, ha, hb⟩
        exact hk ⟨⟨hp, by omega⟩, by omega, by omega⟩
      rw [totalDemandAt_cons, ih, hz]
      ring

lemma SweepTask_some_spec (cap : Int) (ts : List PTask) (c : ℕ) (p : Int)
    (h : SweepTask cap ts c = some p) :
    (ts.getD c dummyTask).start_min ≤ p ∧ p ≤ (ts.getD c dummyTask).start_max ∧
      ¬(cap < heightAt (BuildProfile ts) p + (ts.getD c dummyTask).demand) ∧
      (∀ t, (ts.getD c dummyTask).start_min ≤ t → t < p →
        cap < heightAt (BuildProfile ts) t + (ts.getD c dummyTask).demand) := by
  obtain ⟨hf, hle⟩ := sweepStep_some _ _ _ _ h
  refine ⟨findFit_some_ge _ _ _ _ _ _ hf, hle, findFit_some_ok _ _ _ _ _ _ hf, ?_⟩
  exact findFit_skip _ _ _ _ _ _ (BuildProfile_starts_sorted_le ts)
    (BuildProfile_cov ts _) hf

lemma SweepTask_none_spec (cap : Int) (ts : List PTask) (c : ℕ)
    (h : SweepTask cap ts c = none) :
    ∀ t, (ts.getD c dummyTask).start_min ≤ t → t ≤ (ts.getD c dummyTask).start_max →
      cap < heightAt (BuildProfile ts) t + (ts.getD c dummyTask).demand := by
  rcases sweepStep_none _ _ _ h with hf | ⟨p, hf, hp⟩
  · intro t h1 _
    exact findFit_none _ _ _ _ _ (BuildProfile_starts_sorted_le ts)
      (BuildProfile_cov ts _) hf t h1
  · intro t h1 h2
    exact findFit_skip _ _ _ _ _ _ (BuildProfile_starts_sorted_le ts)
      (BuildProfile_cov ts _) hf t h1 (by omega)

/-- C3: the per-task sweep scans the profile from the task's current
`start_min`; every time in the skipped region lies in a rectangle with
`height + demand > capacity_max` (and those heights are reproduced by the
tasks of the `AddProfileReason` reason set alone), the returned position is
the first non-violating one and is pushed only up to `start_max`; a
conflict is reported exactly when the whole window `[start_min, start_max]`
is violating; in particular, in the spec's scenario of three tasks of
demand 2 on capacity 3 with two tasks mandatory on `[0,4)` and the third
with start in `[0,10]`, the third task's `start_min` is pushed to 4. -/
theorem c3_sweep_task (cap : Int) (ts : List PTask) (c : ℕ) :
    (∀ p, SweepTask cap ts c = some p →
      (ts.getD c dummyTask).start_min ≤ p ∧ p ≤ (ts.getD c dummyTask).start_max ∧
      ¬(cap < heightAt (BuildProfile ts) p + (ts.getD c dummyTask).demand) ∧
      (∀ t, (ts.getD c dummyTask).start_min ≤ t → t < p →
        cap < heightAt (BuildProfile ts) t + (ts.getD c dummyTask).demand ∧
        totalDemandAt (AddProfileReason ts (ts.getD c dummyTask).start_min p) t =
          totalDemandAt ts t)) ∧
    (SweepTask cap ts c = none →
      ∀ t, (ts.getD c dummyTask).start_min ≤ t → t ≤ (ts.getD c dummyTask).start_max →
        cap < heightAt (BuildProfile ts) t + (ts.getD c dummyTask).demand) ∧
    SweepTask 3 [⟨0, 0, 4, 2, true⟩, ⟨0, 0, 4, 2, true⟩, ⟨0, 10, 2, 2, true⟩] 2 = some 4 := by
  refine ⟨?_, ?_, by decide⟩
  · intro p hp
    obtain ⟨ha, hb, hc, hd⟩ := SweepTask_some_spec cap ts c p hp
    exact ⟨ha, hb, hc, fun t h1 h2 => ⟨hd t h1 h2, reason_complete _ _ t h1 h2 ts⟩⟩
  · exact SweepTask_none_spec cap ts c

/-- Witness for C3: in the scenario, position 4 does not violate the
profile, and position 0 does. -/
theorem c3_witness :
    ¬((3:Int) < heightAt (BuildProfile [⟨0, 0, 4, 2, true⟩, ⟨0, 0, 4, 2, true⟩, ⟨0, 10, 2, 2, true⟩]) 4 + 2) :=
  ((c3_sweep_task 3 [⟨0, 0, 4, 2, true⟩, ⟨0, 0, 4, 2, true⟩, ⟨0, 10, 2, 2, true⟩] 2).1
    4 (by decide)).2.2.1

lemma total_le_usage (ts : List PTask) (σ : ℕ → Int) (t : Int)
    (hdem : ∀ τ ∈ ts, 0 ≤ τ.demand)
    (hbounds : ∀ i, i < ts.length →
      (ts.getD i dummyTask).start_min ≤ σ i ∧ σ i ≤ (ts.getD i dummyTask).start_max) :
    totalDemandAt ts t ≤ usage ts σ t := by
  have htot : totalDemandAt ts t =
      ((List.range ts.length).map (fun i => mandContrib (ts.getD i dummyTask) t)).sum := by
    unfold totalDemandAt
    rw [map_eq_range_map dummyTask]
  rw [htot]
  apply List.sum_le_sum
  intro i hi
  have hi' : i < ts.length := List.mem_range.mp hi
  obtain ⟨hb1, hb2⟩ := hbounds i hi'
  exact mand_le_exec _ _ _ (hdem _ (getD_mem dummyTask ts i hi')) hb1 hb2

lemma mandContrib_eq_zero (τ : PTask) (t : Int) (h : ¬hasMandatory τ) :
    mandContrib τ t = 0 := by
  unfold mandContrib
  rw [if_neg]
  rintro ⟨hp, h1, h2⟩
  exact h ⟨hp, by omega⟩

/-- C5 counterexample: with the sweep rule exactly as the spec words it
(`height + demand_min > capacity_max`), a task whose own mandatory part is
in the profile double-counts its demand and the scan can run past
`start_max` on a perfectly feasible state: here task 1 (start in `[0,2]`,
duration 10, demand 2) conflicts against capacity 3 although starting it at
2 is feasible, so the reported conflict has no valid (complete) reason and
the claim is false as stated. -/
theorem c5_counterexample :
    SweepTask 3 [⟨0, 0, 2, 2, true⟩, ⟨0, 2, 10, 2, true⟩] 1 = none ∧
      FeasibleSchedule 3 [⟨0, 0, 2, 2, true⟩, ⟨0, 2, 10, 2, true⟩]
        (fun i => if i = 0 then 0 else 2) := by
  refine ⟨by decide, ⟨?_, ?_⟩⟩
  · intro i hi
    rcases i with _ | _ | i
    · exact ⟨by decide, by decide⟩
    · exact ⟨by decide, by decide⟩
    · simp only [List.length_cons, List.length_nil] at hi
      omega
  · intro t
    have husage : usage [(⟨0, 0, 2, 2, true⟩ : PTask), ⟨0, 2, 10, 2, true⟩]
        (fun i => if i = 0 then 0 else 2) t =
        (if (0:Int) ≤ t ∧ t < 0 + 2 then (2:Int) else 0) +
          ((if (2:Int) ≤ t ∧ t < 2 + 10 then (2:Int) else 0) + 0) := rfl
    rw [husage]
    split_ifs <;> omega

lemma getD_append_len (a : PTask) :
    ∀ R : List PTask, (R ++ [a]).getD R.length dummyTask = a := by
  intro R
  induction R with
  | nil => rfl
  | cons τ R ih => exact ih

lemma totalDemandAt_append (R : List PTask) (τ : PTask) (t : Int) :
    totalDemandAt (R ++ [τ]) t = totalDemandAt R t + mandContrib τ t := by
  simp [totalDemandAt]

/-- C5 (amended): a reported conflict comes with a complete reason: for an
overload found by `BuildProfile`, the `AddProfileReason` task set at the
overloaded time is by itself infeasible, and for a sweep conflict of a task
with positive duration whose own mandatory part is not in the profile, that
task together with the reason set over the scanned range
`[start_min, start_max]` is by itself infeasible — replaying the reasoned
bounds alone reproduces the conflict, and in both cases the full current
bounds are infeasible as well; the functional error branch changes no
bounds.  (For a task whose own mandatory part is in the profile the literal
sweep rule double-counts its demand and the conflict can be spurious, per
the counterexample.) -/
theorem c5_conflict_complete (cap : Int) (ts : List PTask) (σ : ℕ → Int) (c : ℕ)
    (hdem : ∀ τ ∈ ts, 0 ≤ τ.demand) :
    (cumulConflict ts cap = true →
      ¬FeasibleSchedule cap ts σ ∧
      ∃ t0 : Int, ∀ σ' : ℕ → Int,
        ¬FeasibleSchedule cap (AddProfileReason ts t0 (t0 + 1)) σ') ∧
    (c < ts.length → 1 ≤ (ts.getD c dummyTask).dur →
      ¬hasMandatory (ts.getD c dummyTask) → SweepTask cap ts c = none →
      ¬FeasibleSchedule cap ts σ ∧
      ∀ σ' : ℕ → Int,
        ¬FeasibleSchedule cap
          (AddProfileReason ts (ts.getD c dummyTask).start_min
              ((ts.getD c dummyTask).start_max + 1) ++ [ts.getD c dummyTask]) σ') := by
  have hdemR : ∀ l r : Int, ∀ τ ∈ AddProfileReason ts l r, 0 ≤ τ.demand :=
    fun l r τ hτ => hdem τ (List.mem_of_mem_filter hτ)
  constructor
  · intro hconf
    obtain ⟨r, hr, hh⟩ := List.any_eq_true.mp hconf
    have hcap : cap < r.height := of_decide_eq_true hh
    have htot := BuildProfile_height ts r hr
    constructor
    · intro hfeas
      have hle := total_le_usage ts σ r.start hdem hfeas.1
      have := hfeas.2 r.start
      omega
    · refine ⟨r.start, fun σ' hfeas' => ?_⟩
      have hreason := reason_complete r.start (r.start + 1) r.start (le_refl _) (by omega) ts
      have hle := total_le_usage (AddProfileReason ts r.start (r.start + 1)) σ' r.start
        (hdemR _ _) hfeas'.1
      have := hfeas'.2 r.start
      omega
  · intro hclen hdur hnmand hsw
    constructor
    · intro hfeas
      obtain ⟨hb1, hb2⟩ := hfeas.1 c hclen
      have hviol := SweepTask_none_spec cap ts c hsw (σ c) hb1 hb2
      rw [heightAt_BuildProfile] at hviol
      have hz := mandContrib_eq_zero (ts.getD c dummyTask) (σ c) hnmand
      have hge := usage_ge ts σ (σ c) c hdem hfeas.1 hclen ⟨le_refl _, by omega⟩ hz
      have := hfeas.2 (σ c)
      omega
    · intro σ' hfeas'
      set τc := ts.getD c dummyTask with hτc
      set R := AddProfileReason ts τc.start_min (τc.start_max + 1) with hR
      set L := R ++ [τc] with hL
      have hgetD : L.getD R.length dummyTask = τc := getD_append_len τc R
      have hjlen : R.length < L.length := by
        rw [hL, List.length_append]
        simp
      obtain ⟨hb1, hb2⟩ := hfeas'.1 R.length hjlen
      rw [hgetD] at hb1 hb2
      set t := σ' R.length with ht
      have hviol := SweepTask_none_spec cap ts c hsw t hb1 hb2
      rw [heightAt_BuildProfile, ← hτc] at hviol
      have hz := mandContrib_eq_zero τc t hnmand
      have hdemL : ∀ τ ∈ L, 0 ≤ τ.demand := by
        intro τ hτ
        rcases List.mem_append.mp hτ with hτ | hτ
        · exact hdemR _ _ τ hτ
        · rw [List.mem_singleton.mp hτ]
          exact hdem τc (getD_mem dummyTask ts c hclen)
      have hge := usage_ge L σ' t R.length hdemL hfeas'.1 hjlen
        (by rw [hgetD]; exact ⟨le_refl _, by omega⟩) (by rw [hgetD]; exact hz)
      rw [hgetD] at hge
      have htotL : totalDemandAt L t = totalDemandAt ts t := by
        rw [hL, totalDemandAt_append, hz]
        have := reason_complete τc.start_min (τc.start_max + 1) t hb1 (by omega) ts
        rw [← hR] at this
        omega
      rw [htotL] at hge
      have := hfeas'.2 t
      omega

/-- Witness for C5 at the spec's overload scenario (two mandatory tasks of
demands 3 and 4 against capacity 6): the conflicting state admits no
feasible schedule. -/
theorem c5_witness :
    ¬FeasibleSchedule 6 [⟨0, 0, 5, 3, true⟩, ⟨0, 0, 5, 4, true⟩] (fun _ => 0) :=
  ((c5_conflict_complete 6 [⟨0, 0, 5, 3, true⟩, ⟨0, 0, 5, 4, true⟩] (fun _ => 0) 0
    (by decide)).1 (by decide)).1

lemma getD_set_self (a : PTask) :
    ∀ (ts : List PTask) (c : ℕ), c < ts.length → (ts.set c a).getD c dummyTask = a := by
  intro ts
  induction ts with
  | nil => intro c hc; simp at hc
  | cons τ ts ih =>
    intro c hc
    cases c with
    | zero => rfl
    | succ j => exact ih j (by simpa using hc)

lemma getD_set_ne (a : PTask) :
    ∀ (ts : List PTask) (c i : ℕ), i ≠ c → (ts.set c a).getD i dummyTask = ts.getD i dummyTask := by
  intro ts
  induction ts with
  | nil => intro c i _; simp
  | cons τ ts ih =>
    intro c i hic
    cases c with
    | zero =>
      cases i with
      | zero => exact absurd rfl hic
      | succ j => rfl
    | succ k =>
      cases i with
      | zero => rfl
      | succ j => exact ih k j (fun h => hic (by omega))

/-- The relation between a task list and its tightened version after some
sweeps: same length, same `start_max`, duration, demand and presence per
task, and a `start_min` that can only have increased. -/
def SameTasksTightened (ts ts' : List PTask) : Prop :=
  ts'.length = ts.length ∧
  ∀ i : ℕ, (ts'.getD i dummyTask).start_max = (ts.getD i dummyTask).start_max ∧
    (ts'.getD i dummyTask).dur = (ts.getD i dummyTask).dur ∧
    (ts'.getD i dummyTask).demand = (ts.getD i dummyTask).demand ∧
    (ts'.getD i dummyTask).present = (ts.getD i dummyTask).present ∧
    (ts.getD i dummyTask).start_min ≤ (ts'.getD i dummyTask).start_min

lemma sameTT_refl (ts : List PTask) : SameTasksTightened ts ts :=
  ⟨rfl, fun _ => ⟨rfl, rfl, rfl, rfl, le_refl _⟩⟩

lemma sameTT_trans {ts ts' ts'' : List PTask}
    (h1 : SameTasksTightened ts ts') (h2 : SameTasksTightened ts' ts'') :
    SameTasksTightened ts ts'' := by
  refine ⟨h2.1.trans h1.1, fun i => ?_⟩
  obtain ⟨a1, b1, c1, d1, e1⟩ := h1.2 i
  obtain ⟨a2, b2, c2, d2, e2⟩ := h2.2 i
  exact ⟨a2.trans a1, b2.trans b1, c2.trans c1, d2.trans d1, le_trans e1 e2⟩

lemma sameTT_update (ts : List PTask) (c : ℕ) (p : Int)
    (hc : c < ts.length) (hp : (ts.getD c dummyTask).start_min ≤ p) :
    SameTasksTightened ts (UpdateStartingTime ts c p) := by
  unfold UpdateStartingTime
  refine ⟨List.length_set ts c _, fun i => ?_⟩
  by_cases hic : i = c
  · subst hic
    rw [getD_set_self _ ts i hc]
    exact ⟨rfl, rfl, rfl, rfl, hp⟩
  · rw [getD_set_ne _ ts c i hic]
    exact ⟨rfl, rfl, rfl, rfl, le_refl _⟩

lemma mandContrib_zero_of_lt (τ : PTask) (t : Int) (h : t < τ.start_max) :
    mandContrib τ t = 0 := by
  unfold mandContrib
  rw [if_neg]
  rintro ⟨_, h1, _⟩
  omega

def SweepRel (ts0 tsk : List PTask) : Prop :=
  tsk.length = ts0.length ∧
  ∀ i : ℕ, (tsk.getD i dummyTask).dur = (ts0.getD i dummyTask).dur ∧
    (tsk.getD i dummyTask).demand = (ts0.getD i dummyTask).demand ∧
    (tsk.getD i dummyTask).start_max ≤ (ts0.getD i dummyTask).start_max

lemma sweepRel_refl (ts : List PTask) : SweepRel ts ts :=
  ⟨rfl, fun _ => ⟨rfl, rfl, le_refl _⟩⟩

lemma sweepRel_update (ts0 tsk : List PTask) (c : ℕ) (p : Int)
    (hc : c < tsk.length) (h : SweepRel ts0 tsk) :
    SweepRel ts0 (UpdateStartingTime tsk c p) := by
  unfold UpdateStartingTime
  refine ⟨by rw [List.length_set]; exact h.1, fun i => ?_⟩
  by_cases hic : i = c
  · subst hic
    rw [getD_set_self _ tsk i hc]
    exact h.2 i
  · rw [getD_set_ne _ tsk c i hic]
    exact h.2 i

lemma sweepAllAux_sound (cap : Int) (ts0 : List PTask) (σ : ℕ → Int)
    (hdem : ∀ τ ∈ ts0, 0 ≤ τ.demand)
    (hdur : ∀ τ ∈ ts0, 1 ≤ τ.dur)
    (hfeas : FeasibleSchedule cap ts0 σ) :
    ∀ (cs : List ℕ) (tsk ts' : List PTask),
      SweepRel ts0 tsk →
      (∀ i, i < ts0.length → (tsk.getD i dummyTask).start_min ≤ σ i) →
      sweepAllAux cap (BuildProfile ts0) cs tsk = some ts' →
      (∀ i, i < ts0.length → (ts'.getD i dummyTask).start_min ≤ σ i) := by
  intro cs
  induction cs with
  | nil =>
    intro tsk ts' _ hb h
    have h' : tsk = ts' := by simpa [sweepAllAux] using h
    subst h'
    exact hb
  | cons c cs ih =>
    intro tsk ts' hsame hb h
    unfold sweepAllAux at h
    by_cases hfix : (tsk.getD c dummyTask).start_min = (tsk.getD c dummyTask).start_max
    · rw [if_pos hfix] at h
      exact ih tsk ts' hsame hb h
    · rw [if_neg hfix] at h
      cases hsw : sweepStep cap (BuildProfile ts0) (tsk.getD c dummyTask) with
      | none =>
        rw [hsw] at h
        exact absurd h (by simp)
      | some p =>
        rw [hsw] at h
        have h' : (if (tsk.getD c dummyTask).start_min < p then
            sweepAllAux cap (BuildProfile ts0) cs (UpdateStartingTime tsk c p)
          else sweepAllAux cap (BuildProfile ts0) cs tsk) = some ts' := h
        by_cases hlt : (tsk.getD c dummyTask).start_min < p
        · rw [if_pos hlt] at h'
          have hc : c < ts0.length := by
            by_contra hge
            have hlen : ts0.length ≤ c := not_lt.mp hge
            have : tsk.getD c dummyTask = dummyTask :=
              List.getD_eq_default _ _ (by rw [hsame.1]; exact hlen)
            exact hfix (by rw [this]; rfl)
          have hσc : p ≤ σ c := by
            obtain ⟨hf, hple⟩ := sweepStep_some _ _ _ _ hsw
            obtain ⟨hdu, hde, hsm⟩ := hsame.2 c
            by_contra hσ
            have h1 : (tsk.getD c dummyTask).start_min ≤ σ c := hb c hc
            have hviol := findFit_skip _ _ _ _ _ _
              (BuildProfile_starts_sorted_le ts0) (BuildProfile_cov ts0 _) hf
              (σ c) h1 (by omega)
            rw [heightAt_BuildProfile, hde] at hviol
            have hz : mandContrib (ts0.getD c dummyTask) (σ c) = 0 := by
              apply mandContrib_zero_of_lt
              omega
            have hd1 : 1 ≤ (ts0.getD c dummyTask).dur := hdur _ (getD_mem dummyTask ts0 c hc)
            have hge := usage_ge ts0 σ (σ c) c hdem hfeas.1 hc ⟨le_refl _, by omega⟩ hz
            have := hfeas.2 (σ c)
            omega
          have hsame' := sweepRel_update ts0 tsk c p (by rw [hsame.1]; exact hc) hsame
          have hb' : ∀ i, i < ts0.length →
              ((UpdateStartingTime tsk c p).getD i dummyTask).start_min ≤ σ i := by
            intro i hi
            unfold UpdateStartingTime
            by_cases hic : i = c
            · subst hic
              rw [getD_set_self _ tsk i (by rw [hsame.1]; exact hi)]
              exact hσc
            · rw [getD_set_ne _ tsk c i hic]
              exact hb i hi
          exact ih _ ts' hsame' hb' h'
        · rw [if_neg hlt] at h'
          exact ih tsk ts' hsame hb h'

lemma sweepAllAux_mono (cap : Int) (prof : List ProfileRectangle) :
    ∀ (cs : List ℕ) (tsk ts' : List PTask),
      sweepAllAux cap prof cs tsk = some ts' → SameTasksTightened tsk ts' := by
  intro cs
  induction cs with
  | nil =>
    intro tsk ts' h
    have h' : tsk = ts' := by simpa [sweepAllAux] using h
    subst h'
    exact sameTT_refl tsk
  | cons c cs ih =>
    intro tsk ts' h
    unfold sweepAllAux at h
    by_cases hfix : (tsk.getD c dummyTask).start_min = (tsk.getD c dummyTask).start_max
    · rw [if_pos hfix] at h
      exact ih tsk ts' h
    · rw [if_neg hfix] at h
      cases hsw : sweepStep cap prof (tsk.getD c dummyTask) with
      | none =>
        rw [hsw] at h
        exact absurd h (by simp)
      | some p =>
        rw [hsw] at h
        have h' : (if (tsk.getD c dummyTask).start_min < p then
            sweepAllAux cap prof cs (UpdateStartingTime tsk c p)
          else sweepAllAux cap prof cs tsk) = some ts' := h
        by_cases hlt : (tsk.getD c dummyTask).start_min < p
        · rw [if_pos hlt] at h'
          have hc : c < tsk.length := by
            by_contra hge
            have : tsk.getD c dummyTask = dummyTask :=
              List.getD_eq_default _ _ (not_lt.mp hge)
            exact hfix (by rw [this]; rfl)
          exact sameTT_trans (sameTT_update tsk c p hc (le_of_lt hlt)) (ih _ ts' h')
        · rw [if_neg hlt] at h'
          exact ih tsk ts' h'

lemma le_foldl_max (l : List Int) : ∀ a : Int, a ≤ l.foldl max a := by
  induction l with
  | nil => intro a; exact le_refl a
  | cons x l ih =>
    intro a
    exact le_trans (le_max_left a x) (ih (max a x))

lemma mem_le_foldl_max (l : List Int) : ∀ (a x : Int), x ∈ l → x ≤ l.foldl max a := by
  induction l with
  | nil => intro a x hx; exact absurd hx (List.not_mem_nil x)
  | cons y l ih =>
    intro a x hx
    rcases List.mem_cons.mp hx with h | h
    · subst h
      exact le_trans (le_max_right a x) (le_foldl_max l (max a x))
    · exact ih (max a y) x h

lemma foldl_max_cases (l : List Int) : ∀ a : Int, l.foldl max a = a ∨ l.foldl max a ∈ l := by
  induction l with
  | nil => intro a; exact Or.inl rfl
  | cons x l ih =>
    intro a
    rcases ih (max a x) with h | h
    · rcases max_choice a x with hm | hm
      · exact Or.inl (by rw [List.foldl_cons, h, hm])
      · exact Or.inr (by rw [List.foldl_cons, h, hm]; exact List.mem_cons_self x l)
    · exact Or.inr (List.mem_cons_of_mem x h)

/-- Maximum height of the profile of the current bounds (zero when the
profile is empty). -/
def profileMaxHeight (ts : List PTask) : Int :=
  ((BuildProfile ts).map ProfileRectangle.height).foldl max 0

/-- Modelled from the spec: `TimeTablingPerTask::IncreaseCapacity` — raise
the capacity lower bound to the profile's maximum height
(`timetable.cc` is missing). -/
def IncreaseCapacity (capMin : Int) (ts : List PTask) : Int :=
  max capMin (profileMaxHeight ts)

lemma foldr_min_le (l : List Int) : ∀ (a x : Int), x ∈ l → l.foldr min a ≤ x := by
  induction l with
  | nil => intro a x hx; exact absurd hx (List.not_mem_nil x)
  | cons y l ih =>
    intro a x hx
    rcases List.mem_cons.mp hx with h | h
    · subst h
      exact min_le_left x (l.foldr min a)
    · exact le_trans (min_le_right y (l.foldr min a)) (ih a x h)

lemma totalDemandAt_floor (ts : List PTask) :
    totalDemandAt ts ((ts.map PTask.start_max).foldr min 0 - 1) = 0 := by
  unfold totalDemandAt
  apply List.sum_eq_zero
  intro x hx
  obtain ⟨τ, hτ, rfl⟩ := List.mem_map.mp hx
  apply mandContrib_zero_of_lt
  have := foldr_min_le (ts.map PTask.start_max) 0 τ.start_max (List.mem_map_of_mem _ hτ)
  omega

/-- C4: after a conflict-free `BuildProfile`, the capacity lower bound is
raised to at least the profile's maximum height — `IncreaseCapacity` never
leaves it below the mandatory demand at any time — and the peak is actually
achieved at some time, where the reason set of tasks with mandatory parts
overlapping that time reproduces the full height by itself. -/
theorem c4_capacity_tightening (ts : List PTask) (capMin : Int) :
    (∀ t : Int, totalDemandAt ts t ≤ IncreaseCapacity capMin ts) ∧
    (∃ t : Int, totalDemandAt ts t = profileMaxHeight ts ∧
      totalDemandAt (AddProfileReason ts t (t + 1)) t = totalDemandAt ts t) := by
  constructor
  · intro t
    rw [← heightAt_BuildProfile]
    unfold IncreaseCapacity
    rcases heightAt_cases (BuildProfile ts) t with h | ⟨r, hr, h⟩
    · rw [h]
      exact le_trans (le_foldl_max _ 0) (le_max_right _ _)
    · rw [h]
      refine le_trans ?_ (le_max_right capMin _)
      exact mem_le_foldl_max _ 0 r.height (List.mem_map_of_mem _ hr)
  · rcases foldl_max_cases ((BuildProfile ts).map ProfileRectangle.height) 0 with h | h
    · refine ⟨(ts.map PTask.start_max).foldr min 0 - 1, ?_, ?_⟩
      · rw [totalDemandAt_floor]
        unfold profileMaxHeight
        rw [h]
      · exact reason_complete _ _ _ (le_refl _) (by omega) ts
    · obtain ⟨r, hr, hpk⟩ := List.mem_map.mp h
      refine ⟨r.start, ?_, ?_⟩
      · rw [← BuildProfile_height ts r hr]
        unfold profileMaxHeight
        rw [hpk]
      · exact reason_complete _ _ _ (le_refl _) (by omega) ts

/-- Modelled from the spec and the header comment of `ReservoirTimeTabling`:
the value of the piecewise constant function at time `t` is the sum of all
deltas of (present) events with time `≤ t` (`timetable.cc` is missing). -/
def levelLE (E : List (Int × Int)) (t : Int) : Int :=
  sumOver E (fun x => decide (x ≤ t))

/-- The alternative reading mentioned in the header comment of
`ReservoirTimeTabling`: the sum of all deltas of events with time `< t`. -/
def levelLT (E : List (Int × Int)) (t : Int) : Int :=
  sumOver E (fun x => decide (x < t))

/-- Modelled from the spec: the capacity check of
`ReservoirTimeTabling::Propagate` over the full horizon — the initial
function value is zero (hence a negative capacity is trivially infeasible,
as the header notes) and every profile level is compared against the
capacity (`timetable.cc` is missing). -/
def resConflict (E : List (Int × Int)) (cap : Int) : Bool :=
  decide (cap < 0) || (resProfile E).any (fun r => decide (cap < r.height))

lemma sumOver_congr (E : List (Int × Int)) (p q : Int → Bool)
    (h : ∀ e ∈ E, p e.1 = q e.1) : sumOver E p = sumOver E q := by
  unfold sumOver
  rw [List.filter_congr h]

lemma levelLE_floor (E : List (Int × Int)) :
    levelLE E ((E.map Prod.fst).foldr min 0 - 1) = 0 := by
  apply sumOver_eq_zero
  intro e he
  have := foldr_min_le (E.map Prod.fst) 0 e.1 (List.mem_map_of_mem _ he)
  simp only [decide_eq_false_iff_not]
  omega

lemma levelLT_eq (E : List (Int × Int)) (t : Int) :
    levelLT E t = levelLE E (t - 1) := by
  apply sumOver_congr
  intro e _
  apply Bool.decide_congr
  omega

/-- C6 counterexample: the reservoir propagator works with signed deltas, so
its profile heights can be negative — a single present event of delta `-7`
at time 0 produces a rectangle of height `-7`, refuting the claim that
every rectangle height of either propagator is non-negative. -/
theorem c6_counterexample :
    ProfileRectangle.mk 0 (-7) ∈ resProfile [((0:Int), (-7:Int))] ∧
      (ProfileRectangle.mk 0 (-7)).height < 0 :=
  ⟨by decide, by decide⟩

/-- C6 (amended): both propagators' profiles have strictly increasing
rectangle starts, and the cumulative profile's heights are non-negative
whenever the task demands are; the reservoir profile's heights are signed
levels and may be negative. -/
theorem c6_profile_invariant (ts : List PTask) (E : List (Int × Int)) :
    ((BuildProfile ts).map ProfileRectangle.start).Sorted (· < ·) ∧
    ((resProfile E).map ProfileRectangle.start).Sorted (· < ·) ∧
    ((∀ τ ∈ ts, 0 ≤ τ.demand) → ∀ r ∈ BuildProfile ts, 0 ≤ r.height) := by
  refine ⟨BuildProfile_starts_sorted ts, resProfile_starts_sorted E, ?_⟩
  intro hdem r hr
  rw [BuildProfile_height ts r hr]
  unfold totalDemandAt
  apply List.sum_nonneg
  intro x hx
  obtain ⟨τ, hτ, rfl⟩ := List.mem_map.mp hx
  unfold mandContrib
  split_ifs
  · exact hdem τ hτ
  · exact le_refl 0

/-- Witness for C6 (amended): the non-negativity conjunct evaluated on a
one-task profile. -/
theorem c6_witness : (0:Int) ≤ (ProfileRectangle.mk 0 3).height :=
  (c6_profile_invariant [⟨0, 0, 5, 3, true⟩] []).2.2 (by decide)
    (ProfileRectangle.mk 0 3) (by decide)

/-- C8 counterexample: a negative capacity upper bound is not rejected when
the reservoir constraint is posted — the propagator itself surfaces it as a
runtime conflict (the level is zero at time minus infinity and already
exceeds the capacity), refuting the claim that malformed input is never a
propagation outcome. -/
theorem c8_counterexample : resConflict [] (-1) = true := by decide

/-- C8 (amended): a negative capacity makes the reservoir constraint
trivially infeasible, exactly as the header of `ReservoirTimeTabling`
documents: `Propagate` reports a conflict at run time because the level
(zero before any event) already exceeds the capacity somewhere. -/
theorem c8_negative_capacity (E : List (Int × Int)) (cap : Int) (h : cap < 0) :
    resConflict E cap = true ∧ ∃ t : Int, cap < levelLE E t := by
  constructor
  · unfold resConflict
    rw [decide_eq_true h]
    rfl
  · refine ⟨(E.map Prod.fst).foldr min 0 - 1, ?_⟩
    rw [levelLE_floor]
    exact h

/-- Witness for C8 (amended) at the empty event set and capacity `-1`. -/
theorem c8_witness :
    resConflict [] (-1) = true ∧ ∃ t : Int, (-1:Int) < levelLE [] t :=
  c8_negative_capacity [] (-1) (by decide)

/-- C9: the reservoir conflict check over the full horizon is equivalent to
"some time has level above the capacity" under the `time ≤ t` definition of
the level, and that definition is behaviorally interchangeable with the
`time < t` definition — the two readings mentioned in the header comment of
`ReservoirTimeTabling` produce the same propagation outcome. -/
theorem c9_level_equivalence (E : List (Int × Int)) (cap : Int) :
    (resConflict E cap = true ↔ ∃ t : Int, cap < levelLE E t) ∧
    ((∃ t : Int, cap < levelLE E t) ↔ ∃ t : Int, cap < levelLT E t) := by
  constructor
  · constructor
    · intro h
      unfold resConflict at h
      rw [Bool.or_eq_true] at h
      rcases h with h | h
      · refine ⟨(E.map Prod.fst).foldr min 0 - 1, ?_⟩
        rw [levelLE_floor]
        exact of_decide_eq_true h
      · obtain ⟨r, hr, hh⟩ := List.any_eq_true.mp h
        refine ⟨r.start, ?_⟩
        unfold levelLE
        rw [← resProfile_height E r hr]
        exact of_decide_eq_true hh
    · rintro ⟨t, ht⟩
      have hlev : heightAt (resProfile E) t = levelLE E t := heightAt_resProfile E t
      unfold resConflict
      rw [Bool.or_eq_true]
      rcases heightAt_cases (resProfile E) t with h0 | ⟨r, hr, hh⟩
      · left
        rw [h0] at hlev
        exact decide_eq_true (by omega)
      · right
        apply List.any_eq_true.mpr
        refine ⟨r, hr, decide_eq_true ?_⟩
        rw [hh] at hlev
        omega
  · constructor
    · rintro ⟨t, ht⟩
      refine ⟨t + 1, ?_⟩
      rw [levelLT_eq]
      simpa using ht
    · rintro ⟨t, ht⟩
      rw [levelLT_eq] at ht
      exact ⟨t - 1, ht⟩


/-- Modelled from the spec: the time-reversed view of a task used by
`TimeTablingPerTask::ReverseProfile` and the reversed sweep — reflect time
by `t` to `-1 - t`, so a task occupying `[s, s + dur)` occupies
`[-(s + dur), -s)` in reversed time and the reversed start window is
`[-end_max, -end_min]` (`timetable.cc` is missing). -/
def mirrorTask (τ : PTask) : PTask :=
  ⟨-(τ.start_max + τ.dur), -(τ.start_min + τ.dur), τ.dur, τ.demand, τ.present⟩

lemma mirrorTask_dummy : mirrorTask dummyTask = dummyTask := by decide

lemma getD_map_mirror (ts : List PTask) : ∀ i : ℕ,
    (ts.map mirrorTask).getD i dummyTask = mirrorTask (ts.getD i dummyTask) := by
  induction ts with
  | nil =>
    intro i
    show dummyTask = mirrorTask dummyTask
    exact mirrorTask_dummy.symm
  | cons τ ts ih =>
    intro i
    cases i with
    | zero => rfl
    | succ j => exact ih j

lemma mirror_exec (τ : PTask) (s t : Int) :
    execContrib (mirrorTask τ) (-(s + τ.dur)) t = execContrib τ s (-1 - t) := by
  unfold execContrib mirrorTask
  simp only
  apply if_congr _ rfl rfl
  omega

lemma mirror_feasible (cap : Int) (ts : List PTask) (σ : ℕ → Int)
    (h : FeasibleSchedule cap ts σ) :
    FeasibleSchedule cap (ts.map mirrorTask)
      (fun i => -(σ i + (ts.getD i dummyTask).dur)) := by
  constructor
  · intro i hi
    rw [List.length_map] at hi
    rw [getD_map_mirror]
    obtain ⟨hb1, hb2⟩ := h.1 i hi
    simp only [mirrorTask]
    omega
  · intro t
    have husage : usage (ts.map mirrorTask) (fun i => -(σ i + (ts.getD i dummyTask).dur)) t
        = usage ts σ (-1 - t) := by
      unfold usage
      rw [List.length_map]
      refine congrArg List.sum (List.map_congr_left ?_)
      intro i _
      rw [getD_map_mirror]
      exact mirror_exec (ts.getD i dummyTask) (σ i) t
    rw [husage]
    exact h.2 (-1 - t)

/-- Modelled from the spec: `TimeTablingPerTask::Propagate` — build the
profile once; fail on overload; raise the capacity lower bound to the
profile peak (`IncreaseCapacity`, invoked once per call); sweep every task
forward to push `start_min`; then reuse the profile of the call, reversed
(`ReverseProfile`, modelled by the time reflection `mirrorTask`), to sweep
the time-reversed tasks, pushing every `end_max` backward; return the
tightened capacity lower bound together with the tightened task bounds.
Each task of a pass is swept against the same fixed profile, so the
iteration order inside a pass does not change the result
(`timetable.cc` is missing). -/
def Propagate (cap capMin : Int) (ts : List PTask) : Option (Int × List PTask) :=
  if cumulConflict ts cap then none
  else
    match sweepAllAux cap (BuildProfile ts) (List.range ts.length) ts with
    | none => none
    | some ts1 =>
      match sweepAllAux cap (BuildProfile (ts.map mirrorTask))
          (List.range ts1.length) (ts1.map mirrorTask) with
      | none => none
      | some ts2 => some (IncreaseCapacity capMin ts, ts2.map mirrorTask)

lemma Propagate_parts (cap capMin : Int) (ts : List PTask) (capMin' : Int) (ts' : List PTask)
    (h : Propagate cap capMin ts = some (capMin', ts')) :
    capMin' = IncreaseCapacity capMin ts ∧
    ∃ ts1 ts2 : List PTask,
      sweepAllAux cap (BuildProfile ts) (List.range ts.length) ts = some ts1 ∧
      sweepAllAux cap (BuildProfile (ts.map mirrorTask))
        (List.range ts1.length) (ts1.map mirrorTask) = some ts2 ∧
      ts' = ts2.map mirrorTask := by
  unfold Propagate at h
  by_cases hconf : cumulConflict ts cap = true
  · rw [if_pos hconf] at h
    exact absurd h (by simp)
  · rw [if_neg hconf] at h
    cases h1 : sweepAllAux cap (BuildProfile ts) (List.range ts.length) ts with
    | none =>
      rw [h1] at h
      have h' : (none : Option (Int × List PTask)) = some (capMin', ts') := h
      exact absurd h' (by simp)
    | some ts1 =>
      rw [h1] at h
      have hA : (match sweepAllAux cap (BuildProfile (ts.map mirrorTask))
          (List.range ts1.length) (ts1.map mirrorTask) with
        | none => (none : Option (Int × List PTask))
        | some ts2 => some (IncreaseCapacity capMin ts, ts2.map mirrorTask)) =
          some (capMin', ts') := h
      cases h2 : sweepAllAux cap (BuildProfile (ts.map mirrorTask))
          (List.range ts1.length) (ts1.map mirrorTask) with
      | none =>
        rw [h2] at hA
        have h' : (none : Option (Int × List PTask)) = some (capMin', ts') := hA
        exact absurd h' (by simp)
      | some ts2 =>
        rw [h2] at hA
        have h' : (some (IncreaseCapacity capMin ts, ts2.map mirrorTask) :
            Option (Int × List PTask)) = some (capMin', ts') := hA
        have h3 := Option.some.inj h'
        obtain ⟨e1, e2⟩ := Prod.mk.inj h3
        exact ⟨e1.symm, ts1, ts2, rfl, h2, e2.symm⟩

/-- The relation between a bound store and its propagated version: same
task count, same durations, demands and presences, `start_min` only
increased and `start_max` (hence `end_max`) only decreased. -/
def BoundsTightened (ts ts' : List PTask) : Prop :=
  ts'.length = ts.length ∧
  ∀ i : ℕ, (ts'.getD i dummyTask).dur = (ts.getD i dummyTask).dur ∧
    (ts'.getD i dummyTask).demand = (ts.getD i dummyTask).demand ∧
    (ts'.getD i dummyTask).present = (ts.getD i dummyTask).present ∧
    (ts.getD i dummyTask).start_min ≤ (ts'.getD i dummyTask).start_min ∧
    (ts'.getD i dummyTask).start_max ≤ (ts.getD i dummyTask).start_max

lemma sameTT_boundsTightened {ts ts' : List PTask} (h : SameTasksTightened ts ts') :
    BoundsTightened ts ts' := by
  refine ⟨h.1, fun i => ?_⟩
  obtain ⟨hsm, hdu, hde, hpr, hmin⟩ := h.2 i
  exact ⟨hdu, hde, hpr, hmin, le_of_eq hsm⟩

lemma boundsTightened_trans {ts ts' ts'' : List PTask}
    (h1 : BoundsTightened ts ts') (h2 : BoundsTightened ts' ts'') :
    BoundsTightened ts ts'' := by
  refine ⟨h2.1.trans h1.1, fun i => ?_⟩
  obtain ⟨a1, b1, c1, d1, e1⟩ := h1.2 i
  obtain ⟨a2, b2, c2, d2, e2⟩ := h2.2 i
  exact ⟨a2.trans a1, b2.trans b1, c2.trans c1, le_trans d1 d2, le_trans e2 e1⟩

lemma mirror_tightened {ts1 ts2 : List PTask}
    (h : SameTasksTightened (ts1.map mirrorTask) ts2) :
    BoundsTightened ts1 (ts2.map mirrorTask) := by
  refine ⟨?_, fun i => ?_⟩
  · rw [List.length_map, h.1, List.length_map]
  · obtain ⟨hsm, hdu, hde, hpr, hmin⟩ := h.2 i
    rw [getD_map_mirror] at hsm hdu hde hpr hmin
    rw [getD_map_mirror]
    refine ⟨?_, ?_, ?_, ?_, ?_⟩
    · simp only [mirrorTask] at hdu ⊢
      omega
    · simp only [mirrorTask] at hde ⊢
      omega
    · simp only [mirrorTask] at hpr ⊢
      exact hpr
    · simp only [mirrorTask] at hsm hdu ⊢
      omega
    · simp only [mirrorTask] at hmin hdu ⊢
      omega

lemma profileMaxHeight_attained (ts : List PTask) :
    ∃ t : Int, totalDemandAt ts t = profileMaxHeight ts := by
  rcases foldl_max_cases ((BuildProfile ts).map ProfileRectangle.height) 0 with h | h
  · refine ⟨(ts.map PTask.start_max).foldr min 0 - 1, ?_⟩
    rw [totalDemandAt_floor]
    unfold profileMaxHeight
    rw [h]
  · obtain ⟨r, hr, hpk⟩ := List.mem_map.mp h
    refine ⟨r.start, ?_⟩
    rw [← BuildProfile_height ts r hr]
    unfold profileMaxHeight
    rw [hpk]


/-- Modelled from the spec: one event of `ReservoirTimeTabling`, restricted
to the proven-present events the propagator works with — a time window
`[time_min, time_max]` and a signed level change `delta`
(`timetable.cc` is missing). -/
structure REvent where
  time_min : Int
  time_max : Int
  delta : Int
  deriving DecidableEq, Repr

def dummyREvent : REvent := ⟨0, 0, 0⟩

/-- Modelled from the spec and the header comment ("profile of the
minimum level"): the least possible contribution of one event to the level
at time `t` — a positive delta counts only from its latest time, a
negative delta already from its earliest time
(`timetable.cc` is missing). -/
def rcontrib (e : REvent) (t : Int) : Int :=
  if 0 < e.delta then (if e.time_max ≤ t then e.delta else 0)
  else if e.time_min ≤ t then e.delta else 0

def minLevelAt (evs : List REvent) (t : Int) : Int :=
  (evs.map (fun e => rcontrib e t)).sum

/-- The profile events contributed by one reservoir event to the
minimum-level profile. -/
def revEventOf (e : REvent) : List (Int × Int) :=
  if 0 < e.delta then [(e.time_max, e.delta)]
  else if e.delta < 0 then [(e.time_min, e.delta)] else []

/-- Modelled from the spec: the profile events of all reservoir events
except event `k` (the `event_to_ignore` of
`FillReasonForProfileAtGivenTime` in `timetable.h`;
`timetable.cc` is missing). -/
def revEventsExcept (evs : List REvent) (k : ℕ) : List (Int × Int) :=
  ((List.range evs.length).filter (fun i => !decide (i = k))).flatMap
    (fun i => revEventOf (evs.getD i dummyREvent))

def minLevelExcept (evs : List REvent) (k : ℕ) (t : Int) : Int :=
  ((List.range evs.length).map
    (fun i => if i = k then 0 else rcontrib (evs.getD i dummyREvent) t)).sum

/-- The reservoir level at time `t` when event `i` happens at time
`θ i`. -/
def levelOf (evs : List REvent) (θ : ℕ → Int) (t : Int) : Int :=
  ((List.range evs.length).map
    (fun i => if θ i ≤ t then (evs.getD i dummyREvent).delta else 0)).sum

/-- An assignment of times to the events is feasible when every time lies
in its event's window and the level never exceeds the capacity. -/
def RFeasible (cap : Int) (evs : List REvent) (θ : ℕ → Int) : Prop :=
  (∀ i, i < evs.length →
    (evs.getD i dummyREvent).time_min ≤ θ i ∧
      θ i ≤ (evs.getD i dummyREvent).time_max) ∧
  (∀ t : Int, levelOf evs θ t ≤ cap)

/-- Modelled from the spec: `ReservoirTimeTabling::TryToIncreaseMin` for a
positive-delta event `k` — scan the minimum-level profile of the other
events from the event's earliest time; while adding the event's delta
there would push the level above the capacity, advance to the next profile
start; push the earliest time to the first non-violating position, or
report a conflict when the scan passes the event's latest time
(`timetable.cc` is missing). -/
def TryToIncreaseMin (cap : Int) (evs : List REvent) (k : ℕ) : Option Int :=
  match findFit (resProfile (revEventsExcept evs k)) (evs.getD k dummyREvent).delta cap
      ((resProfile (revEventsExcept evs k)).map ProfileRectangle.start)
      (evs.getD k dummyREvent).time_min with
  | none => none
  | some p =>
      if (evs.getD k dummyREvent).time_max < p then none else some p

/-- Modelled from the spec: `ReservoirTimeTabling::TryToDecreaseMax` for a
negative-delta event `k` — when the minimum-level profile of the other
events exceeds the capacity from some time on, the event must happen no
later than the first such time: its latest time is lowered to that time,
or a conflict is reported when that time is before its earliest time
(`timetable.cc` is missing). -/
def TryToDecreaseMax (cap : Int) (evs : List REvent) (k : ℕ) : Option Int :=
  match (resProfile (revEventsExcept evs k)).find? (fun r => decide (cap < r.height)) with
  | none => some (evs.getD k dummyREvent).time_max
  | some r =>
      if r.start < (evs.getD k dummyREvent).time_min then none
      else some (min (evs.getD k dummyREvent).time_max r.start)

lemma sumOver_single (a d : Int) (p : Int → Bool) :
    sumOver [(a, d)] p = if p a then d else 0 := by
  unfold sumOver
  cases h : p a <;> simp [List.filter_cons, h]

lemma sumOver_revEventOf (e : REvent) (t : Int) :
    sumOver (revEventOf e) (fun x => decide (x ≤ t)) = rcontrib e t := by
  unfold revEventOf rcontrib
  by_cases h1 : 0 < e.delta
  · rw [if_pos h1, if_pos h1, sumOver_single]
    simp
  · rw [if_neg h1, if_neg h1]
    by_cases h2 : e.delta < 0
    · rw [if_pos h2, sumOver_single]
      simp
    · rw [if_neg h2]
      have h0 : e.delta = 0 := by omega
      rw [h0]
      simp [sumOver]

lemma filter_map_sum {α : Type} (l : List α) (q : α → Bool) (f : α → Int) :
    ((l.filter q).map f).sum = (l.map (fun x => if q x then f x else 0)).sum := by
  induction l with
  | nil => rfl
  | cons x l ih =>
    rw [List.filter_cons]
    cases h : q x <;> simp [h, ih]

lemma sumOver_revEventsExcept (evs : List REvent) (k : ℕ) (t : Int) :
    sumOver (revEventsExcept evs k) (fun x => decide (x ≤ t)) = minLevelExcept evs k t := by
  unfold revEventsExcept minLevelExcept
  rw [sumOver_flatMap]
  have h1 : ((List.range evs.length).filter (fun i => !decide (i = k))).map
        (fun i => sumOver (revEventOf (evs.getD i dummyREvent)) (fun x => decide (x ≤ t))) =
      ((List.range evs.length).filter (fun i => !decide (i = k))).map
        (fun i => rcontrib (evs.getD i dummyREvent) t) :=
    List.map_congr_left (fun i _ => sumOver_revEventOf _ t)
  rw [h1, filter_map_sum]
  refine congrArg List.sum (List.map_congr_left ?_)
  intro i _
  by_cases h : i = k
  · simp [h]
  · simp [h]

lemma heightAt_exceptProfile (evs : List REvent) (k : ℕ) (t : Int) :
    heightAt (resProfile (revEventsExcept evs k)) t = minLevelExcept evs k t := by
  rw [heightAt_resProfile, sumOver_revEventsExcept]

lemma rect_height_except (evs : List REvent) (k : ℕ) (r : ProfileRectangle)
    (hr : r ∈ resProfile (revEventsExcept evs k)) :
    r.height = minLevelExcept evs k r.start := by
  rw [resProfile_height _ _ hr, sumOver_revEventsExcept]

lemma rcontrib_le (e : REvent) (s t : Int) (h1 : e.time_min ≤ s) (h2 : s ≤ e.time_max) :
    rcontrib e t ≤ (if s ≤ t then e.delta else 0) := by
  unfold rcontrib
  split_ifs <;> omega

lemma minLevel_le_level (evs : List REvent) (θ : ℕ → Int) (t : Int)
    (hbounds : ∀ i, i < evs.length →
      (evs.getD i dummyREvent).time_min ≤ θ i ∧
        θ i ≤ (evs.getD i dummyREvent).time_max) :
    minLevelAt evs t ≤ levelOf evs θ t := by
  unfold minLevelAt levelOf
  rw [map_eq_range_map dummyREvent]
  apply List.sum_le_sum
  intro i hi
  have hi' := List.mem_range.mp hi
  obtain ⟨hb1, hb2⟩ := hbounds i hi'
  exact rcontrib_le _ _ _ hb1 hb2

lemma exceptLevel_le (evs : List REvent) (θ : ℕ → Int) (t : Int) (k : ℕ)
    (hbounds : ∀ i, i < evs.length →
      (evs.getD i dummyREvent).time_min ≤ θ i ∧
        θ i ≤ (evs.getD i dummyREvent).time_max)
    (hk : ¬ θ k ≤ t ∨ 0 ≤ (evs.getD k dummyREvent).delta) :
    minLevelExcept evs k t ≤ levelOf evs θ t := by
  unfold minLevelExcept levelOf
  apply List.sum_le_sum
  intro i hi
  have hi' := List.mem_range.mp hi
  obtain ⟨hb1, hb2⟩ := hbounds i hi'
  by_cases h : i = k
  · subst h
    rw [if_pos rfl]
    rcases hk with hk | hk
    · rw [if_neg hk]
    · split_ifs <;> omega
  · rw [if_neg h]
    exact rcontrib_le _ _ _ hb1 hb2

lemma exceptLevel_add_le (evs : List REvent) (θ : ℕ → Int) (t : Int) (k : ℕ)
    (hbounds : ∀ i, i < evs.length →
      (evs.getD i dummyREvent).time_min ≤ θ i ∧
        θ i ≤ (evs.getD i dummyREvent).time_max)
    (hk : k < evs.length) (hθ : θ k ≤ t)
    (hδ : 0 < (evs.getD k dummyREvent).delta) :
    minLevelExcept evs k t + (evs.getD k dummyREvent).delta ≤ levelOf evs θ t := by
  unfold minLevelExcept levelOf
  have hsub := list_sum_map_sub (List.range evs.length)
    (fun i => if θ i ≤ t then (evs.getD i dummyREvent).delta else 0)
    (fun i => if i = k then 0 else rcontrib (evs.getD i dummyREvent) t)
  have hmemk : k ∈ List.range evs.length := List.mem_range.mpr hk
  have hone : (evs.getD k dummyREvent).delta ≤
      ((List.range evs.length).map
        (fun i => (if θ i ≤ t then (evs.getD i dummyREvent).delta else 0) -
          (if i = k then 0 else rcontrib (evs.getD i dummyREvent) t))).sum := by
    apply List.single_le_sum
    · intro x hx
      obtain ⟨i, hi, rfl⟩ := List.mem_map.mp hx
      have hi' := List.mem_range.mp hi
      obtain ⟨hb1, hb2⟩ := hbounds i hi'
      by_cases h : i = k
      · subst h
        rw [if_pos rfl, if_pos hθ]
        omega
      · rw [if_neg h]
        have := rcontrib_le (evs.getD i dummyREvent) (θ i) t hb1 hb2
        omega
    · refine List.mem_map.mpr ⟨k, hmemk, ?_⟩
      rw [if_pos rfl, if_pos hθ]
      omega
  omega

lemma resProfile_starts_sorted_le (E : List (Int × Int)) :
    ((resProfile E).map ProfileRectangle.start).Sorted (· ≤ ·) :=
  (resProfile_starts_sorted E).imp (fun h => le_of_lt h)

lemma resProfile_cov (E : List (Int × Int)) (pos : Int) :
    ∀ r ∈ resProfile E, pos < r.start →
      r.start ∈ (resProfile E).map ProfileRectangle.start :=
  fun _r hr _ => List.mem_map_of_mem _ hr

lemma tryIncreaseMin_sound (cap : Int) (evs : List REvent) (k : ℕ) (p : Int) (θ : ℕ → Int)
    (hk : k < evs.length) (hδ : 0 < (evs.getD k dummyREvent).delta)
    (h : TryToIncreaseMin cap evs k = some p) (hfeas : RFeasible cap evs θ) :
    p ≤ θ k := by
  unfold TryToIncreaseMin at h
  cases hf : findFit (resProfile (revEventsExcept evs k)) (evs.getD k dummyREvent).delta cap
      ((resProfile (revEventsExcept evs k)).map ProfileRectangle.start)
      (evs.getD k dummyREvent).time_min with
  | none =>
    rw [hf] at h
    have h' : (none : Option Int) = some p := h
    exact absurd h' (by simp)
  | some q =>
    rw [hf] at h
    have h' : (if (evs.getD k dummyREvent).time_max < q then none else some q) = some p := h
    by_cases hq : (evs.getD k dummyREvent).time_max < q
    · rw [if_pos hq] at h'
      exact absurd h' (by simp)
    · rw [if_neg hq] at h'
      have hqp : q = p := Option.some.inj h'
      subst hqp
      by_contra hlt
      obtain ⟨hb1, hb2⟩ := hfeas.1 k hk
      have hviol := findFit_skip (resProfile (revEventsExcept evs k))
        (evs.getD k dummyREvent).delta cap
        ((resProfile (revEventsExcept evs k)).map ProfileRectangle.start)
        (evs.getD k dummyREvent).time_min q
        (resProfile_starts_sorted_le _) (resProfile_cov _ _) hf (θ k) hb1 (by omega)
      rw [heightAt_exceptProfile] at hviol
      have hge := exceptLevel_add_le evs θ (θ k) k hfeas.1 hk (le_refl _) hδ
      have hcap := hfeas.2 (θ k)
      omega

lemma tryDecreaseMax_sound (cap : Int) (evs : List REvent) (k : ℕ) (q : Int) (θ : ℕ → Int)
    (hk : k < evs.length)
    (h : TryToDecreaseMax cap evs k = some q) (hfeas : RFeasible cap evs θ) :
    θ k ≤ q := by
  obtain ⟨hb1, hb2⟩ := hfeas.1 k hk
  unfold TryToDecreaseMax at h
  cases hf : (resProfile (revEventsExcept evs k)).find? (fun r => decide (cap < r.height)) with
  | none =>
    rw [hf] at h
    have h' : some (evs.getD k dummyREvent).time_max = some q := h
    rw [← Option.some.inj h']
    exact hb2
  | some r =>
    rw [hf] at h
    have h' : (if r.start < (evs.getD k dummyREvent).time_min then none
        else some (min (evs.getD k dummyREvent).time_max r.start)) = some q := h
    by_cases hr : r.start < (evs.getD k dummyREvent).time_min
    · rw [if_pos hr] at h'
      exact absurd h' (by simp)
    · rw [if_neg hr] at h'
      rw [← Option.some.inj h']
      refine le_min hb2 ?_
      by_contra hgt
      have hpred := List.find?_some hf
      have hh : cap < r.height := by simpa using hpred
      have hmem := List.mem_of_find?_eq_some hf
      rw [rect_height_except evs k r hmem] at hh
      have hle := exceptLevel_le evs θ r.start k hfeas.1 (Or.inl (by omega))
      have hcap := hfeas.2 r.start
      omega


lemma usage_congr (ts ts' : List PTask) (σ : ℕ → Int) (t : Int)
    (hlen : ts'.length = ts.length)
    (hfld : ∀ i : ℕ, (ts'.getD i dummyTask).dur = (ts.getD i dummyTask).dur ∧
      (ts'.getD i dummyTask).demand = (ts.getD i dummyTask).demand) :
    usage ts' σ t = usage ts σ t := by
  unfold usage
  rw [hlen]
  refine congrArg List.sum (List.map_congr_left ?_)
  intro i _
  obtain ⟨hdu, hde⟩ := hfld i
  unfold execContrib
  rw [hdu, hde]

/-- C2 counterexample: a task of duration 0 consumes no capacity, yet the
spec's sweep rule (`height + demand_min > capacity_max`) still pushes its
`start_min` — here a full `Propagate` round on capacity 3 pushes the
zero-duration task from 0 to 4, although starting both tasks at 0 is
feasible, so the push excludes solutions and the claim is false as
stated. -/
theorem c2_counterexample :
    Propagate 3 0 [⟨0, 0, 4, 2, true⟩, ⟨0, 10, 0, 2, true⟩] =
      some (2, [⟨0, 0, 4, 2, true⟩, ⟨4, 10, 0, 2, true⟩]) ∧
    FeasibleSchedule 3 [⟨0, 0, 4, 2, true⟩, ⟨0, 10, 0, 2, true⟩] (fun _ => 0) ∧
    ¬FeasibleSchedule 3 [⟨0, 0, 4, 2, true⟩, ⟨4, 10, 0, 2, true⟩] (fun _ => 0) := by
  refine ⟨by decide, ⟨?_, ?_⟩, ?_⟩
  · intro i hi
    rcases i with _ | _ | i
    · exact ⟨by decide, by decide⟩
    · exact ⟨by decide, by decide⟩
    · simp only [List.length_cons, List.length_nil] at hi
      omega
  · intro t
    have husage : usage [(⟨0, 0, 4, 2, true⟩ : PTask), ⟨0, 10, 0, 2, true⟩] (fun _ => 0) t =
        (if (0:Int) ≤ t ∧ t < 0 + 4 then (2:Int) else 0) +
          ((if (0:Int) ≤ t ∧ t < 0 + 0 then (2:Int) else 0) + 0) := rfl
    rw [husage]
    split_ifs <;> omega
  · intro hfeas
    exact absurd (hfeas.1 1 (by decide)).1 (by decide)

/-- C2 (amended): every push of the modelled propagators is sound away
from the zero-duration anomaly — a full `Propagate` round (overload check,
forward `start_min` sweep, reversed `end_max` sweep, capacity tightening)
on tasks of positive duration and non-negative demand keeps every solution
of the original bounds; the tightened capacity lower bound is below every
feasible capacity value; a reservoir `TryToIncreaseMin` push is a lower
bound on the event's time in every feasible assignment, a
`TryToDecreaseMax` push an upper bound, and the minimum-level profile
never exceeds a feasible capacity. -/
theorem c2_propagate_sound :
    (∀ (cap capMin : Int) (ts : List PTask) (capMin' : Int) (ts' : List PTask) (σ : ℕ → Int),
      (∀ τ ∈ ts, 0 ≤ τ.demand) → (∀ τ ∈ ts, 1 ≤ τ.dur) →
      Propagate cap capMin ts = some (capMin', ts') →
      FeasibleSchedule cap ts σ → FeasibleSchedule cap ts' σ) ∧
    (∀ (cap capMin : Int) (ts : List PTask) (capMin' : Int) (ts' : List PTask)
        (σ : ℕ → Int) (capVal : Int),
      (∀ τ ∈ ts, 0 ≤ τ.demand) →
      Propagate cap capMin ts = some (capMin', ts') →
      capMin ≤ capVal → FeasibleSchedule capVal ts σ → capMin' ≤ capVal) ∧
    (∀ (cap : Int) (evs : List REvent) (k : ℕ) (p : Int) (θ : ℕ → Int),
      k < evs.length → 0 < (evs.getD k dummyREvent).delta →
      TryToIncreaseMin cap evs k = some p → RFeasible cap evs θ → p ≤ θ k) ∧
    (∀ (cap : Int) (evs : List REvent) (k : ℕ) (q : Int) (θ : ℕ → Int),
      k < evs.length → TryToDecreaseMax cap evs k = some q →
      RFeasible cap evs θ → θ k ≤ q) ∧
    (∀ (cap : Int) (evs : List REvent) (θ : ℕ → Int) (t : Int),
      RFeasible cap evs θ → minLevelAt evs t ≤ cap) := by
  refine ⟨?_, ?_, ?_, ?_, ?_⟩
  · intro cap capMin ts capMin' ts' σ hdem hdur hp hσ
    obtain ⟨hcm, ts1, ts2, h1, h2, hts'⟩ := Propagate_parts cap capMin ts capMin' ts' hp
    have hb1 := sweepAllAux_sound cap ts σ hdem hdur hσ (List.range ts.length) ts ts1
      (sweepRel_refl ts) (fun i hi => (hσ.1 i hi).1) h1
    have hmono1 := sweepAllAux_mono cap (BuildProfile ts) (List.range ts.length) ts ts1 h1
    have hfeasM := mirror_feasible cap ts σ hσ
    have hdemM : ∀ τ ∈ ts.map mirrorTask, 0 ≤ τ.demand := by
      intro τ hτ
      obtain ⟨τ0, hτ0, rfl⟩ := List.mem_map.mp hτ
      simpa [mirrorTask] using hdem τ0 hτ0
    have hdurM : ∀ τ ∈ ts.map mirrorTask, 1 ≤ τ.dur := by
      intro τ hτ
      obtain ⟨τ0, hτ0, rfl⟩ := List.mem_map.mp hτ
      simpa [mirrorTask] using hdur τ0 hτ0
    have hlen1 : ts1.length = ts.length := hmono1.1
    have hrel : SweepRel (ts.map mirrorTask) (ts1.map mirrorTask) := by
      refine ⟨?_, fun i => ?_⟩
      · rw [List.length_map, List.length_map, hlen1]
      · rw [getD_map_mirror, getD_map_mirror]
        obtain ⟨hsm, hdu, hde, _, hmin⟩ := hmono1.2 i
        refine ⟨?_, ?_, ?_⟩ <;> simp only [mirrorTask] <;> omega
    have hbM : ∀ i, i < (ts.map mirrorTask).length →
        ((ts1.map mirrorTask).getD i dummyTask).start_min ≤
          -(σ i + (ts.getD i dummyTask).dur) := by
      intro i hi
      rw [List.length_map] at hi
      rw [getD_map_mirror]
      obtain ⟨hsm, hdu, _, _, _⟩ := hmono1.2 i
      have hσmax := (hσ.1 i hi).2
      simp only [mirrorTask]
      omega
    have hb2 := sweepAllAux_sound cap (ts.map mirrorTask)
      (fun i => -(σ i + (ts.getD i dummyTask).dur)) hdemM hdurM hfeasM
      (List.range ts1.length) (ts1.map mirrorTask) ts2 hrel hbM h2
    have hmono2 := sweepAllAux_mono cap (BuildProfile (ts.map mirrorTask))
      (List.range ts1.length) (ts1.map mirrorTask) ts2 h2
    have hlen2 : ts2.length = ts1.length := by rw [hmono2.1, List.length_map]
    subst hts'
    constructor
    · intro i hi
      have hi' : i < ts.length := by
        rw [List.length_map, hlen2, hlen1] at hi
        exact hi
      rw [getD_map_mirror]
      obtain ⟨hsm2, hdu2, _, _, _⟩ := hmono2.2 i
      rw [getD_map_mirror] at hsm2 hdu2
      obtain ⟨hsm1, hdu1, _, _, _⟩ := hmono1.2 i
      have hσlow := hb1 i hi'
      have hσM : (ts2.getD i dummyTask).start_min ≤
          -(σ i + (ts.getD i dummyTask).dur) :=
        hb2 i (by rw [List.length_map]; exact hi')
      constructor
      · simp only [mirrorTask] at hsm2 hdu2 ⊢
        omega
      · simp only [mirrorTask] at hsm2 hdu2 ⊢
        omega
    · intro t
      have hfld : ∀ i : ℕ,
          ((ts2.map mirrorTask).getD i dummyTask).dur = (ts.getD i dummyTask).dur ∧
          ((ts2.map mirrorTask).getD i dummyTask).demand = (ts.getD i dummyTask).demand := by
        intro i
        rw [getD_map_mirror]
        obtain ⟨_, hdu2, hde2, _, _⟩ := hmono2.2 i
        rw [getD_map_mirror] at hdu2 hde2
        obtain ⟨_, hdu1, hde1, _, _⟩ := hmono1.2 i
        constructor <;> simp only [mirrorTask] at hdu2 hde2 ⊢ <;> omega
      have hlen' : (ts2.map mirrorTask).length = ts.length := by
        rw [List.length_map, hlen2, hlen1]
      rw [usage_congr ts (ts2.map mirrorTask) σ t hlen' hfld]
      exact hσ.2 t
  · intro cap capMin ts capMin' ts' σ capVal hdem hp hle hfeas
    have hcm := (Propagate_parts cap capMin ts capMin' ts' hp).1
    rw [hcm]
    unfold IncreaseCapacity
    apply max_le hle
    obtain ⟨t0, ht0⟩ := profileMaxHeight_attained ts
    calc profileMaxHeight ts = totalDemandAt ts t0 := ht0.symm
      _ ≤ usage ts σ t0 := total_le_usage ts σ t0 hdem hfeas.1
      _ ≤ capVal := hfeas.2 t0
  · intro cap evs k p θ hk hδ h hfeas
    exact tryIncreaseMin_sound cap evs k p θ hk hδ h hfeas
  · intro cap evs k q θ hk h hfeas
    exact tryDecreaseMax_sound cap evs k q θ hk h hfeas
  · intro cap evs θ t hfeas
    exact le_trans (minLevel_le_level evs θ t hfeas.1) (hfeas.2 t)

theorem c2_witness :
    FeasibleSchedule 3 [(⟨0, 0, 4, 2, true⟩ : PTask), ⟨4, 10, 1, 2, true⟩]
      (fun i => if i = 0 then 0 else 5) := by
  have hfeas : FeasibleSchedule 3 [(⟨0, 0, 4, 2, true⟩ : PTask), ⟨0, 10, 1, 2, true⟩]
      (fun i => if i = 0 then 0 else 5) := by
    refine ⟨?_, ?_⟩
    · intro i hi
      rcases i with _ | _ | i
      · exact ⟨by decide, by decide⟩
      · exact ⟨by decide, by decide⟩
      · simp only [List.length_cons, List.length_nil] at hi
        omega
    · intro t
      have husage : usage [(⟨0, 0, 4, 2, true⟩ : PTask), ⟨0, 10, 1, 2, true⟩]
          (fun i => if i = 0 then 0 else 5) t =
          (if (0:Int) ≤ t ∧ t < 0 + 4 then (2:Int) else 0) +
            ((if (5:Int) ≤ t ∧ t < 5 + 1 then (2:Int) else 0) + 0) := rfl
      rw [husage]
      split_ifs <;> omega
  exact (c2_propagate_sound.1) 3 0 [⟨0, 0, 4, 2, true⟩, ⟨0, 10, 1, 2, true⟩] 2
    [⟨0, 0, 4, 2, true⟩, ⟨4, 10, 1, 2, true⟩] (fun i => if i = 0 then 0 else 5)
    (by decide) (by decide) (by decide) hfeas

lemma propagate_bounds (cap capMin : Int) (ts : List PTask) (capMin' : Int) (ts' : List PTask)
    (h : Propagate cap capMin ts = some (capMin', ts')) :
    BoundsTightened ts ts' ∧ capMin ≤ capMin' := by
  obtain ⟨hcm, ts1, ts2, h1, h2, hts'⟩ := Propagate_parts cap capMin ts capMin' ts' h
  have hm1 := sweepAllAux_mono cap (BuildProfile ts) (List.range ts.length) ts ts1 h1
  have hm2 := sweepAllAux_mono cap (BuildProfile (ts.map mirrorTask))
    (List.range ts1.length) (ts1.map mirrorTask) ts2 h2
  subst hts'
  refine ⟨boundsTightened_trans (sameTT_boundsTightened hm1) (mirror_tightened hm2), ?_⟩
  rw [hcm]
  unfold IncreaseCapacity
  exact le_max_left _ _

/-- C7 counterexample: one `Propagate` call need not reach the fixpoint —
the profile is built once per call, so a push that creates a new mandatory
part is not seen by the same call's remaining sweeps: here the first call
pushes task 1 to start 4 (creating the mandatory part `[6, 14)`) but
leaves task 2 at 10, and only the second call pushes task 2 to 14, so the
second call changes the bound store and the claim's "fixpoint after one
call" reading is false. -/
theorem c7_counterexample :
    Propagate 3 0 [⟨0, 0, 4, 2, true⟩, ⟨0, 6, 10, 2, true⟩, ⟨10, 20, 1, 2, true⟩] =
      some (2, [⟨0, 0, 4, 2, true⟩, ⟨4, 6, 10, 2, true⟩, ⟨10, 20, 1, 2, true⟩]) ∧
    Propagate 3 2 [⟨0, 0, 4, 2, true⟩, ⟨4, 6, 10, 2, true⟩, ⟨10, 20, 1, 2, true⟩] =
      some (2, [⟨0, 0, 4, 2, true⟩, ⟨4, 6, 10, 2, true⟩, ⟨14, 20, 1, 2, true⟩]) ∧
    ([(⟨4, 6, 10, 2, true⟩ : PTask), ⟨14, 20, 1, 2, true⟩] ≠
      [(⟨4, 6, 10, 2, true⟩ : PTask), ⟨10, 20, 1, 2, true⟩]) :=
  ⟨by decide, by decide, by decide⟩

/-- C7 (amended): a successful call of either propagator only tightens —
`Propagate` keeps the task count, durations, demands and presences,
only increases every `start_min`, only decreases every `start_max` (hence
every `end_max`), and only raises the capacity lower bound; a reservoir
`TryToIncreaseMin` push stays inside the event's window and a
`TryToDecreaseMax` push only lowers the event's latest time — so repeated
calls move every bound monotonically; but one call need not reach the
fixpoint (see the counterexample), so "the second call returns the store
unchanged" is false in general. -/
theorem c7_propagate_monotone :
    (∀ (cap capMin : Int) (ts : List PTask) (capMin' : Int) (ts' : List PTask),
      Propagate cap capMin ts = some (capMin', ts') →
      BoundsTightened ts ts' ∧ capMin ≤ capMin') ∧
    (∀ (cap : Int) (evs : List REvent) (k : ℕ) (p : Int),
      TryToIncreaseMin cap evs k = some p →
      (evs.getD k dummyREvent).time_min ≤ p ∧ p ≤ (evs.getD k dummyREvent).time_max) ∧
    (∀ (cap : Int) (evs : List REvent) (k : ℕ) (q : Int),
      TryToDecreaseMax cap evs k = some q → q ≤ (evs.getD k dummyREvent).time_max) := by
  refine ⟨fun cap capMin ts capMin' ts' h => propagate_bounds cap capMin ts capMin' ts' h,
    ?_, ?_⟩
  · intro cap evs k p h
    unfold TryToIncreaseMin at h
    cases hf : findFit (resProfile (revEventsExcept evs k)) (evs.getD k dummyREvent).delta cap
        ((resProfile (revEventsExcept evs k)).map ProfileRectangle.start)
        (evs.getD k dummyREvent).time_min with
    | none =>
      rw [hf] at h
      have h' : (none : Option Int) = some p := h
      exact absurd h' (by simp)
    | some q =>
      rw [hf] at h
      have h' : (if (evs.getD k dummyREvent).time_max < q then none else some q) = some p := h
      by_cases hq : (evs.getD k dummyREvent).time_max < q
      · rw [if_pos hq] at h'
        exact absurd h' (by simp)
      · rw [if_neg hq] at h'
        have hqp : q = p := Option.some.inj h'
        subst hqp
        exact ⟨findFit_some_ge _ _ _ _ _ _ hf, not_lt.mp hq⟩
  · intro cap evs k q h
    unfold TryToDecreaseMax at h
    cases hf : (resProfile (revEventsExcept evs k)).find? (fun r => decide (cap < r.height)) with
    | none =>
      rw [hf] at h
      have h' : some (evs.getD k dummyREvent).time_max = some q := h
      exact le_of_eq (Option.some.inj h').symm
    | some r =>
      rw [hf] at h
      have h' : (if r.start < (evs.getD k dummyREvent).time_min then none
          else some (min (evs.getD k dummyREvent).time_max r.start)) = some q := h
      by_cases hr : r.start < (evs.getD k dummyREvent).time_min
      · rw [if_pos hr] at h'
        exact absurd h' (by simp)
      · rw [if_neg hr] at h'
        rw [← Option.some.inj h']
        exact min_le_left _ _

theorem c7_witness :
    (0:Int) ≤ 2 ∧
      BoundsTightened [⟨0, 0, 4, 2, true⟩, ⟨0, 6, 10, 2, true⟩, ⟨10, 20, 1, 2, true⟩]
        [⟨0, 0, 4, 2, true⟩, ⟨4, 6, 10, 2, true⟩, ⟨10, 20, 1, 2, true⟩] := by
  have h := (c7_propagate_monotone.1) 3 0
    [⟨0, 0, 4, 2, true⟩, ⟨0, 6, 10, 2, true⟩, ⟨10, 20, 1, 2, true⟩] 2
    [⟨0, 0, 4, 2, true⟩, ⟨4, 6, 10, 2, true⟩, ⟨10, 20, 1, 2, true⟩] (by decide)
  exact ⟨h.2, h.1⟩

/-- A task of a job-shop problem: the durations of its alternatives
(repeated field `duration` of the proto). -/
structure JsspTask where
  duration : List Int
  deriving DecidableEq, Repr

/-- A job of a job-shop problem: its tasks and optional horizon bounds. -/
structure Job where
  tasks : List JsspTask
  earliest_start : Option Int
  latest_end : Option Int
  deriving DecidableEq, Repr

/-- A transition time matrix, stored row-major as in the proto. -/
structure TransitionTimeMatrix where
  transition_time : List Int
  deriving DecidableEq, Repr

/-- A machine with its optional transition time matrix. -/
structure Machine where
  transition_time_matrix : Option TransitionTimeMatrix
  deriving DecidableEq, Repr

/-- A job-shop input problem: jobs and machines. -/
structure JsspInputProblem where
  jobs : List Job
  machines : List Machine
  deriving DecidableEq, Repr

/-- The C++ constant `kint64max`. -/
def kint64max : Int := 9223372036854775807

/-- One iteration of the job loop of `ComputeHorizon` in `jobshop_sat.cc`:
the accumulator is `(sum_of_durations, max_latest_end, max_earliest_start)`. -/
def horizonJobStep (acc : Int × Int × Int) (job : Job) : Int × Int × Int :=
  (job.tasks.foldl (fun s tk => s + tk.duration.foldl (fun m d => max m d) 0) acc.1,
   match job.latest_end with
   | some v => max acc.2.1 v
   | none => kint64max,
   match job.earliest_start with
   | some v => max acc.2.2 v
   | none => acc.2.2)

/-- One iteration of the machine loop of `ComputeHorizon` in
`jobshop_sat.cc`, accumulating `sum_of_transitions`. -/
def horizonMachineStep (n : ℕ) (s : Int) (m : Machine) : Int :=
  match m.transition_time_matrix with
  | none => s
  | some matrix =>
      (List.range n).foldl
        (fun s2 i =>
          s2 + (List.range n).foldl
            (fun mt j => max mt (matrix.transition_time.getD (i * n + j) 0)) 0)
        s

/-- `ComputeHorizon` from `jobshop_sat.cc`: the minimum of the maximal
latest end and of the sum of maximal durations plus maximal transitions
plus the maximal earliest start. -/
def ComputeHorizon (p : JsspInputProblem) : Int :=
  min (p.jobs.foldl horizonJobStep (0, 0, 0)).2.1
    ((p.jobs.foldl horizonJobStep (0, 0, 0)).1 +
      p.machines.foldl (horizonMachineStep p.jobs.length) 0 +
      (p.jobs.foldl horizonJobStep (0, 0, 0)).2.2)

/-- Sum over all tasks of the maximum of 0 and the alternative durations. -/
def specSumDurations (p : JsspInputProblem) : Int :=
  (p.jobs.map (fun j => (j.tasks.map (fun tk => tk.duration.foldl max 0)).sum)).sum

/-- Maximum of 0 and the `latest_end` values, `kint64max` when some job has
none. -/
def specMaxLatestEnd (p : JsspInputProblem) : Int :=
  if p.jobs.any (fun j => j.latest_end.isNone) then kint64max
  else (p.jobs.filterMap Job.latest_end).foldl max 0

/-- Maximum of 0 and the `earliest_start` values of the jobs. -/
def specMaxEarliestStart (p : JsspInputProblem) : Int :=
  (p.jobs.filterMap Job.earliest_start).foldl max 0

/-- Maximum of 0 and the transition times of row `i` of a matrix. -/
def rowMaxTransition (matrix : TransitionTimeMatrix) (n i : ℕ) : Int :=
  ((List.range n).map (fun j => matrix.transition_time.getD (i * n + j) 0)).foldl max 0

/-- Sum over the machines having a transition matrix of the row maxima. -/
def specSumTransitions (p : JsspInputProblem) : Int :=
  (p.machines.map (fun m =>
    match m.transition_time_matrix with
    | none => 0
    | some matrix =>
        ((List.range p.jobs.length).map (rowMaxTransition matrix p.jobs.length)).sum)).sum

/-- The maximum of a list as the claim words it — the maximum of the
values themselves, with no implicit 0 (stated only to compare against the
code; the empty list is given the value 0). -/
def listMaxD : List Int → Int
  | [] => 0
  | x :: xs => xs.foldl max x

/-- The horizon formula exactly as the claim words it: the maximum
`latest_end` value over jobs (`kint64max` when some job has none), and the
sum of the maximal alternative durations plus the transition row maxima
plus the maximum `earliest_start` over jobs, with no clamping at 0. -/
def ClaimedHorizon (p : JsspInputProblem) : Int :=
  min (if p.jobs.any (fun j => j.latest_end.isNone) then kint64max
       else listMaxD (p.jobs.filterMap Job.latest_end))
    ((p.jobs.map (fun j => (j.tasks.map (fun tk => listMaxD tk.duration)).sum)).sum +
      specSumTransitions p + listMaxD (p.jobs.filterMap Job.earliest_start))

lemma foldl_add_eq {α : Type} (f : α → Int) (l : List α) :
    ∀ a : Int, l.foldl (fun s x => s + f x) a = a + (l.map f).sum := by
  induction l with
  | nil => intro a; simp
  | cons x l ih =>
    intro a
    rw [List.foldl_cons, ih (a + f x), List.map_cons, List.sum_cons]
    ring

lemma foldl_max_map {α : Type} (f : α → Int) (l : List α) :
    ∀ a : Int, l.foldl (fun m x => max m (f x)) a = (l.map f).foldl max a := by
  induction l with
  | nil => intro a; rfl
  | cons x l ih => intro a; rw [List.foldl_cons, ih, List.map_cons, List.foldl_cons]

lemma foldl_max_of_le (l : List Int) :
    ∀ a : Int, (∀ x ∈ l, x ≤ a) → l.foldl max a = a := by
  induction l with
  | nil => intro a _; rfl
  | cons x l ih =>
    intro a h
    rw [List.foldl_cons, max_eq_left (h x (List.mem_cons_self x l))]
    exact ih a (fun y hy => h y (List.mem_cons_of_mem x hy))

lemma horizonJobsFold_fst (jobs : List Job) :
    ∀ (a : Int) (bc : Int × Int), (jobs.foldl horizonJobStep (a, bc)).1 =
      a + (jobs.map (fun j => (j.tasks.map (fun tk => tk.duration.foldl max 0)).sum)).sum := by
  induction jobs with
  | nil => intro a bc; simp
  | cons j jobs ih =>
    intro a bc
    rw [List.foldl_cons]
    have hstep : horizonJobStep (a, bc) j =
        ((a + (j.tasks.map (fun tk => tk.duration.foldl max 0)).sum,
          (horizonJobStep (a, bc) j).2)) := by
      unfold horizonJobStep
      rw [foldl_add_eq]
    rw [hstep, ih]
    simp [List.map_cons, List.sum_cons]
    ring

lemma horizonJobsFold_earliest (jobs : List Job) :
    ∀ (a b c : Int), (jobs.foldl horizonJobStep (a, b, c)).2.2 =
      (jobs.filterMap Job.earliest_start).foldl max c := by
  induction jobs with
  | nil => intro a b c; simp
  | cons j jobs ih =>
    intro a b c
    rw [List.foldl_cons]
    cases hes : j.earliest_start with
    | none =>
      have hstep : horizonJobStep (a, b, c) j =
          ((horizonJobStep (a, b, c) j).1, (horizonJobStep (a, b, c) j).2.1, c) := by
        unfold horizonJobStep
        rw [hes]
      rw [hstep, ih]
      rw [List.filterMap_cons_none hes]
    | some v =>
      have hstep : horizonJobStep (a, b, c) j =
          ((horizonJobStep (a, b, c) j).1, (horizonJobStep (a, b, c) j).2.1,
            max c v) := by
        unfold horizonJobStep
        rw [hes]
      rw [hstep, ih]
      rw [List.filterMap_cons_some hes, List.foldl_cons]

lemma horizonJobsFold_latest (jobs : List Job) :
    ∀ (a : Int) (b : Int) (c : Int), b ≤ kint64max →
      (∀ j ∈ jobs, ∀ v, j.latest_end = some v → v ≤ kint64max) →
      (jobs.foldl horizonJobStep (a, b, c)).2.1 =
        (if jobs.any (fun j => j.latest_end.isNone) then kint64max
         else (jobs.filterMap Job.latest_end).foldl max b) := by
  induction jobs with
  | nil => intro a b c _ _; simp
  | cons j jobs ih =>
    intro a b c hb hvals
    rw [List.foldl_cons]
    cases hle : j.latest_end with
    | none =>
      have hstep : horizonJobStep (a, b, c) j =
          ((horizonJobStep (a, b, c) j).1, kint64max, (horizonJobStep (a, b, c) j).2.2) := by
        unfold horizonJobStep
        rw [hle]
      rw [hstep]
      rw [ih _ kint64max _ (le_refl _) (fun j' hj' => hvals j' (List.mem_cons_of_mem j hj'))]
      have hany : (j :: jobs).any (fun j => j.latest_end.isNone) = true := by
        simp [hle]
      rw [if_pos hany]
      by_cases h2 : jobs.any (fun j => j.latest_end.isNone) = true
      · rw [if_pos h2]
      · rw [if_neg h2]
        apply foldl_max_of_le
        intro x hx
        obtain ⟨j', hj', hx'⟩ := List.mem_filterMap.mp hx
        exact hvals j' (List.mem_cons_of_mem j hj') x hx'
    | some v =>
      have hstep : horizonJobStep (a, b, c) j =
          ((horizonJobStep (a, b, c) j).1, max b v, (horizonJobStep (a, b, c) j).2.2) := by
        unfold horizonJobStep
        rw [hle]
      rw [hstep]
      have hv : v ≤ kint64max := hvals j (List.mem_cons_self j jobs) v hle
      rw [ih _ (max b v) _ (max_le hb hv) (fun j' hj' => hvals j' (List.mem_cons_of_mem j hj'))]
      have hany : (j :: jobs).any (fun j => j.latest_end.isNone) =
          jobs.any (fun j => j.latest_end.isNone) := by
        simp [hle]
      rw [hany, List.filterMap_cons_some hle, List.foldl_cons]

lemma horizonMachinesFold (n : ℕ) (ms : List Machine) :
    ∀ s : Int, ms.foldl (horizonMachineStep n) s =
      s + (ms.map (fun m =>
        match m.transition_time_matrix with
        | none => 0
        | some matrix => ((List.range n).map (rowMaxTransition matrix n)).sum)).sum := by
  induction ms with
  | nil => intro s; simp
  | cons m ms ih =>
    intro s
    rw [List.foldl_cons, ih]
    cases hm : m.transition_time_matrix with
    | none =>
      have hstep : horizonMachineStep n s m = s := by
        unfold horizonMachineStep
        rw [hm]
      rw [hstep]
      simp [hm]
    | some matrix =>
      have hstep : horizonMachineStep n s m =
          s + ((List.range n).map (rowMaxTransition matrix n)).sum := by
        unfold horizonMachineStep
        rw [hm]
        have : ∀ i : ℕ,
            (List.range n).foldl
              (fun mt j => max mt (matrix.transition_time.getD (i * n + j) 0)) 0 =
              rowMaxTransition matrix n i := by
          intro i
          unfold rowMaxTransition
          rw [foldl_max_map]
        have hfun : (fun (s2 : Int) (i : ℕ) =>
              s2 + (List.range n).foldl
                (fun mt j => max mt (matrix.transition_time.getD (i * n + j) 0)) 0) =
            fun (s2 : Int) (i : ℕ) => s2 + rowMaxTransition matrix n i := by
          funext s2 i
          rw [this i]
        show (List.range n).foldl
            (fun s2 i =>
              s2 + (List.range n).foldl
                (fun mt j => max mt (matrix.transition_time.getD (i * n + j) 0)) 0) s =
          s + ((List.range n).map (rowMaxTransition matrix n)).sum
        rw [hfun]
        exact foldl_add_eq _ _ s
      rw [hstep]
      simp [hm]
      ring

/-- C10 counterexample: for a job whose `latest_end` is negative, the code
clamps `max_latest_end` at its initial value 0, so the claimed formula
("the maximum latest_end value over jobs") disagrees with `ComputeHorizon`:
with one job of `latest_end = -5` and a single task of duration 3 the code
returns 0 while the claimed formula gives `-5`. -/
theorem c10_counterexample :
    ComputeHorizon ⟨[⟨[⟨[3]⟩], none, some (-5)⟩], []⟩ ≠
      ClaimedHorizon ⟨[⟨[⟨[3]⟩], none, some (-5)⟩], []⟩ := by decide

/-- C10 (amended): provided each present `latest_end` value fits below
`kint64max` (always true for C++ `int64` values), `ComputeHorizon` returns
the minimum of (a) the maximum of 0 and the `latest_end` values, taken as
`kint64max` when some job has none, and (b) the sum over all tasks of the
maximum of 0 and their alternative durations, plus, over the machines with
a transition matrix, the sum of the row maxima (each clamped at 0), plus
the maximum of 0 and the `earliest_start` values — all maxima include the
accumulators' initial value 0. -/
theorem c10_compute_horizon (p : JsspInputProblem)
    (hle : ∀ j ∈ p.jobs, j.latest_end.getD 0 ≤ kint64max) :
    ComputeHorizon p =
      min (specMaxLatestEnd p)
        (specSumDurations p + specSumTransitions p + specMaxEarliestStart p) := by
  have hle' : ∀ j ∈ p.jobs, ∀ v : Int, j.latest_end = some v → v ≤ kint64max := by
    intro j hj v hv
    have := hle j hj
    rw [hv] at this
    simpa using this
  unfold ComputeHorizon
  rw [horizonJobsFold_fst p.jobs 0 (0, 0)]
  rw [horizonJobsFold_latest p.jobs 0 0 0 (by decide) hle']
  rw [horizonJobsFold_earliest p.jobs 0 0 0]
  rw [horizonMachinesFold p.jobs.length p.machines 0]
  unfold specMaxLatestEnd specSumDurations specSumTransitions specMaxEarliestStart
  simp only [zero_add]

/-- Witness for C10 (amended) on a one-job, one-machine problem with a
transition matrix. -/
theorem c10_witness :
    ComputeHorizon ⟨[⟨[⟨[3, 5]⟩], some 2, some 100⟩], [⟨some ⟨[7]⟩⟩]⟩ =
      min (specMaxLatestEnd ⟨[⟨[⟨[3, 5]⟩], some 2, some 100⟩], [⟨some ⟨[7]⟩⟩]⟩)
        (specSumDurations ⟨[⟨[⟨[3, 5]⟩], some 2, some 100⟩], [⟨some ⟨[7]⟩⟩]⟩ +
          specSumTransitions ⟨[⟨[⟨[3, 5]⟩], some 2, some 100⟩], [⟨some ⟨[7]⟩⟩]⟩ +
          specMaxEarliestStart ⟨[⟨[⟨[3, 5]⟩], some 2, some 100⟩], [⟨some ⟨[7]⟩⟩]⟩) :=
  c10_compute_horizon ⟨[⟨[⟨[3, 5]⟩], some 2, some 100⟩], [⟨some ⟨[7]⟩⟩]⟩ (by decide)
